import Mathlib

/-!
# Verification of the mags motion-planner core

A shallow embedding of the planner sources:

* `planning/graph.py` — tangent-and-arc visibility graph construction,
* `mags/planning/astar.py` — A* search over that graph,
* `mags/move_manager.py` — translation of a path into linear/arc toolpath instructions,

together with proofs and refutations of the specification's claims about them.

Modelling conventions:

* Python objects keyed by identity (`id(...)`) become indices into per-graph lists:
  a `Node` is an index into `Graph.nodes`, a `Circle` an index into `Graph.circles`.
  Two objects with equal coordinates are still distinct entities, exactly as distinct
  list positions are.
* IEEE floats become real numbers.  Total real functions replace numpy's partial ones:
  where numpy's `arccos` would produce `nan` (argument outside `[-1, 1]`),
  `Real.arccos` produces a junk real value.  No claim settled below depends on the
  coordinate values produced in that situation — only on counts, membership and
  control flow, which match the Python exactly (numpy emits `nan` silently and the
  surrounding code continues).
* Python dictionaries become association lists with replace-on-update semantics.
* The priority queue becomes a list from which a lexicographically minimal
  `(priority, node)` entry is removed, matching `heapq` tuple ordering with the
  id-based tie-break of `Node.__lt__`.
-/

noncomputable section

open scoped Classical

namespace Mags

/-! ## Geometry primitives

`planning/utils.py` is not among the provided sources; these four primitives are
modelled from the spec (§4.1), which defines them precisely. -/

/-- Modelled from the spec: `dist(a, b)` from the missing `planning/utils.py`;
§4.1 defines it as the Euclidean distance. -/
def dist (a b : ℝ × ℝ) : ℝ :=
  Real.sqrt ((a.1 - b.1) ^ 2 + (a.2 - b.2) ^ 2)

/-- Modelled from the spec: `transform_polar(origin, r, θ)` (called `polar_offset`
in §4.1) from the missing `planning/utils.py`: the point at distance `r` from
`origin` in direction `θ`. -/
def transform_polar (origin : ℝ × ℝ) (r θ : ℝ) : ℝ × ℝ :=
  (origin.1 + r * Real.cos θ, origin.2 + r * Real.sin θ)

/-- Modelled from the spec: `v2v_angle(from, to)` from the missing
`planning/utils.py`: the angle of the vector `to − from` measured counter-clockwise
from the positive x-axis, in `(−π, π]` — numpy `arctan2` semantics, realised as the
complex argument. -/
def v2v_angle (p q : ℝ × ℝ) : ℝ :=
  Complex.arg ⟨q.1 - p.1, q.2 - p.2⟩

/-- Modelled from the spec: `zero_to_2pi(θ)` (`normalize_angle_0_2π` in §4.1) from
the missing `planning/utils.py`: shift `θ` into `[0, 2π)`. -/
def zero_to_2pi (θ : ℝ) : ℝ :=
  θ - 2 * Real.pi * ⌊θ / (2 * Real.pi)⌋

/-! ## Data model (`planning/graph.py`, classes `Circle`, `Node`, `Edge`, `Graph`) -/

/-- `Circle`: radius and center. -/
structure Circle where
  r : ℝ
  center : ℝ × ℝ

/-- `Node`: the circle the node is on (as an index into `Graph.circles`) and its
(x, y) position. -/
structure GNode where
  circle : ℕ
  position : ℝ × ℝ

/-- `Edge`: two nodes (as indices into `Graph.nodes`) and the surfing flag. -/
structure GEdge where
  first : ℕ
  second : ℕ
  surfing : Bool
deriving DecidableEq

/-- `Graph`: circles, nodes (both in insertion order, standing for the
insertion-ordered `id`-keyed dicts of the source) and the two edge lists. -/
structure Graph where
  circles : List Circle
  nodes : List GNode
  surfing_edges : List GEdge
  hugging_edges : List GEdge

/-- Dereference a node index (edges hold node references in the source; a default
is supplied for out-of-range indices, which well-formed graphs never produce). -/
def nodeData (g : Graph) (i : ℕ) : GNode :=
  g.nodes.getD i ⟨0, (0, 0)⟩

/-- Dereference a circle index. -/
def circleData (g : Graph) (i : ℕ) : Circle :=
  g.circles.getD i ⟨0, (0, 0)⟩

/-- `Graph.get_edges`: surfing edges followed by hugging edges. -/
def get_edges (g : Graph) : List GEdge :=
  g.surfing_edges ++ g.hugging_edges

/-- `Graph.get_neighbors`: all `(neighbor_node, edge)` pairs, in edge-list order.
The `elif` of the source means a self-loop contributes exactly one pair. -/
def get_neighbors (g : Graph) (n : ℕ) : List (ℕ × GEdge) :=
  (get_edges g).filterMap fun e =>
    if e.first = n then some (e.second, e)
    else if e.second = n then some (e.first, e)
    else none

/-- `Edge.check_equivalence`: same nodes in the same or swapped order. -/
def check_equivalence (e o : GEdge) : Prop :=
  (e.first = o.first ∧ e.second = o.second) ∨ (e.first = o.second ∧ e.second = o.first)

/-! ## Segment–circle intersection test and pruning (`planning/graph.py`) -/

/-- `Graph.check_circle_intersection`: distance from the circle center to the
closed segment (projection clamped to the nearer endpoint when the center falls
beyond an end), compared against the radius.  Note the comparison of the source is
`d <= r` — non-strict. -/
def check_circle_intersection (g : Graph) (c : Circle) (e : GEdge) : Prop :=
  let center := c.center
  let pos1 := (nodeData g e.first).position
  let pos2 := (nodeData g e.second).position
  let d :=
    if (center.1 - pos1.1) * (pos2.1 - pos1.1) + (center.2 - pos1.2) * (pos2.2 - pos1.2) < 0 then
      dist center pos1
    else if (center.1 - pos2.1) * (pos1.1 - pos2.1) + (center.2 - pos2.2) * (pos1.2 - pos2.2) < 0 then
      dist center pos2
    else
      |(pos2.1 - pos1.1) * (center.2 - pos1.2) - (pos2.2 - pos1.2) * (center.1 - pos1.1)| /
        dist pos2 pos1
  d ≤ c.r

/-- `Graph.check_intersection`: the edge intersects some circle of the graph other
than the two circles carrying its endpoints (`in` on the ignore list is object
identity, i.e. index equality). -/
def check_intersection (g : Graph) (e : GEdge) : Prop :=
  ∃ ci < g.circles.length, ci ≠ (nodeData g e.first).circle ∧
    ci ≠ (nodeData g e.second).circle ∧ check_circle_intersection g (circleData g ci) e

/-- The filtering loop of `Graph.clean_surfing_edges` (copy, then `remove` each
edge whose `check_intersection` holds). -/
def removeIntersecting (g : Graph) : List GEdge → List GEdge
  | [] => []
  | e :: es =>
    if check_intersection g e then removeIntersecting g es else e :: removeIntersecting g es

/-- `Graph.clean_surfing_edges`. -/
def clean_surfing_edges (g : Graph) : Graph :=
  { g with surfing_edges := removeIntersecting g g.surfing_edges }

/-! ## Bitangent construction (`planning/graph.py`) -/

/-- `Graph.add_internal_bitangets` (circle indices `c1` = A, `c2` = B): four new
nodes `C, D` on A and `E, F` on B, and the two surfing edges `(D, E)`, `(C, F)`. -/
def add_internal_bitangets (g : Graph) (c1 c2 : ℕ) : Graph :=
  let A := (circleData g c1).center
  let B := (circleData g c2).center
  let r1 := (circleData g c1).r
  let r2 := (circleData g c2).r
  let d := dist A B
  let θ := Real.arccos ((r1 + r2) / d)
  let angleAB := v2v_angle A B
  let angleBA := v2v_angle B A
  let C := transform_polar A r1 (angleAB + θ)
  let D := transform_polar A r1 (angleAB - θ)
  let E := transform_polar B r2 (angleBA - θ)
  let F := transform_polar B r2 (angleBA + θ)
  let iC := g.nodes.length
  { g with
    nodes := g.nodes ++ [⟨c1, C⟩, ⟨c1, D⟩, ⟨c2, E⟩, ⟨c2, F⟩],
    surfing_edges := g.surfing_edges ++ [⟨iC + 1, iC + 2, true⟩, ⟨iC, iC + 3, true⟩] }

/-- `Graph.add_external_bitangets` (circle indices `c1` = A, `c2` = B). -/
def add_external_bitangets (g : Graph) (c1 c2 : ℕ) : Graph :=
  let A := (circleData g c1).center
  let B := (circleData g c2).center
  let r1 := (circleData g c1).r
  let r2 := (circleData g c2).r
  let d := dist A B
  let θ := Real.arccos (|r1 - r2| / d)
  let angleAB := v2v_angle A B
  let angleBA := v2v_angle B A
  let C := transform_polar A r1 (angleAB + θ)
  let D := transform_polar A r1 (angleAB - θ)
  let E := transform_polar B r2 ((angleBA + Real.pi) - θ)
  let F := transform_polar B r2 ((angleBA + Real.pi) + θ)
  let iC := g.nodes.length
  { g with
    nodes := g.nodes ++ [⟨c1, C⟩, ⟨c1, D⟩, ⟨c2, E⟩, ⟨c2, F⟩],
    surfing_edges := g.surfing_edges ++ [⟨iC + 1, iC + 2, true⟩, ⟨iC, iC + 3, true⟩] }

/-! ## Hugging edges (`Graph.add_hugging_edges`) -/

/-- The node indices owned by circle `c`, in node-insertion order — the grouping
the source builds by iterating `self.nodes.values()`. -/
def nodesOnCircle (g : Graph) (c : ℕ) : List ℕ :=
  (List.range g.nodes.length).filterMap fun i =>
    if (nodeData g i).circle = c then some i else none

/-- First-occurrence deduplication: the key order of a Python dict built by
repeated insertion. -/
def firstDedup : List ℕ → List ℕ
  | [] => []
  | x :: t => x :: firstDedup (t.filter fun y => decide (y ≠ x))
termination_by l => l.length
decreasing_by
  simp only [List.length_cons]
  exact Nat.lt_succ_of_le (List.length_filter_le _ _)

/-- Circles of nonzero radius in order of first owned node, matching the
insertion order of the `nodes_by_circle` dict (zero-radius circles skipped). -/
def nonzeroCirclesInOrder (g : Graph) : List ℕ :=
  firstDedup (g.nodes.filterMap fun nd =>
    if (circleData g nd.circle).r = 0 then none else some nd.circle)

/-- The inner loop of `add_hugging_edges`: connect `nodes[i]` to
`nodes[(i+1) % len(nodes)]` for each `i` — consecutive pairs with wrap-around.
A single node yields one self-loop; two nodes yield two parallel edges. -/
def cyclePairs (l : List ℕ) : List GEdge :=
  l.zipWith (fun a b => GEdge.mk a b false) (l.rotate 1)

/-- `Graph.add_hugging_edges`: discard all hugging edges and rebuild the per-disc
cycles from the current node set, in insertion order (the source sorts nothing). -/
def add_hugging_edges (g : Graph) : Graph :=
  { g with
    hugging_edges :=
      ((nonzeroCirclesInOrder g).map fun c => cyclePairs (nodesOnCircle g c)).flatten }

/-! ## Point insertion (`Graph.add_tangents`, `Graph.add_point`) -/

/-- `Graph.add_tangents` from the point node `pointNode` to circle `c`.  For a
zero-radius target the two point nodes are joined directly (unless an equivalent
surfing edge exists); otherwise `θ = arccos(r / d)` — with no `d ≥ r` guard —
places two tangent-contact nodes on `c` and joins `pointNode` to each. -/
def add_tangents (g : Graph) (pointNode : ℕ) (c : ℕ) : Graph :=
  let A := (nodeData g pointNode).position
  let B := (circleData g c).center
  let r := (circleData g c).r
  if r = 0 then
    match (List.range g.nodes.length).find? (fun i => (nodeData g i).circle == c) with
    | none => g  -- unbound `circle_node` in the source: unreachable for point circles
    | some j =>
      let e : GEdge := ⟨pointNode, j, true⟩
      if ∃ o ∈ g.surfing_edges, check_equivalence e o then g
      else { g with surfing_edges := g.surfing_edges ++ [e] }
  else
    let d := dist A B
    let θ := Real.arccos (r / d)
    let angleBA := v2v_angle B A
    let E := transform_polar B r (angleBA - θ)
    let F := transform_polar B r (angleBA + θ)
    let iE := g.nodes.length
    { g with
      nodes := g.nodes ++ [⟨c, E⟩, ⟨c, F⟩],
      surfing_edges := g.surfing_edges ++ [⟨pointNode, iE, true⟩, ⟨pointNode, iE + 1, true⟩] }

/-- `Graph.add_point`: register the point disc `c` and its node at `pos`, add
tangents to every pre-existing circle, then re-prune surfing edges and rebuild
hugging edges (in that order, as in the source). -/
def add_point (g : Graph) (c : Circle) (pos : ℝ × ℝ) : Graph :=
  let ci := g.circles.length
  let ni := g.nodes.length
  let g1 : Graph := { g with circles := g.circles ++ [c], nodes := g.nodes ++ [⟨ci, pos⟩] }
  let g2 := (List.range g.circles.length).foldl (fun h oc => add_tangents h ni oc) g1
  add_hugging_edges (clean_surfing_edges g2)

/-! ## Graph construction (`Graph.__init__`) -/

/-- The ordered pairs `(circle, other_circle)` visited by the double loop of
`Graph.__init__`, skipping only the diagonal — each unordered pair appears twice. -/
def orderedPairs (n : ℕ) : List (ℕ × ℕ) :=
  ((List.range n).map fun i =>
    (List.range n).filterMap fun j => if j = i then none else some (i, j)).flatten

/-- The bitangent phase of `Graph.__init__`: for each ordered pair the call is
`add_internal_bitangets(other_circle, circle)` then `add_external_bitangets`, i.e.
with the *inner* loop circle as first argument. -/
def addAllBitangents (cs : List Circle) : Graph :=
  (orderedPairs cs.length).foldl
    (fun g p => add_external_bitangets (add_internal_bitangets g p.2 p.1) p.2 p.1)
    ⟨cs, [], [], []⟩

/-- `Graph.__init__`: bitangents for every ordered pair, hugging edges, pruning. -/
def graphInit (cs : List Circle) : Graph :=
  clean_surfing_edges (add_hugging_edges (addAllBitangents cs))

/-! ## A* search (`mags/planning/astar.py`, class `Astar`)

`calculate_path` first calls `self.graph.prepare()`; that method is defined in a
module not among the provided sources, so the search is embedded as operating on
the graph it is handed.  Start and goal are node indices (they are inserted by
`set_start`/`set_goal` through `Graph.add_point`). -/

/-- `np.clip(x, lo, hi)`. -/
def np_clip (x lo hi : ℝ) : ℝ :=
  max lo (min x hi)

/-- `Astar.get_edge_cost`: `1 + length`, with surfing length the Euclidean
distance and hugging length the arc length `r·φ`,
`φ = arccos(clip(a·b/(|a|·|b|), −1, 1))` about the first node's circle. -/
def get_edge_cost (g : Graph) (e : GEdge) : ℝ :=
  let first := nodeData g e.first
  let second := nodeData g e.second
  if e.surfing then 1 + dist first.position second.position
  else
    let arcCenter := (circleData g first.circle).center
    let a := (first.position.1 - arcCenter.1, first.position.2 - arcCenter.2)
    let b := (second.position.1 - arcCenter.1, second.position.2 - arcCenter.2)
    let cosAngle := (a.1 * b.1 + a.2 * b.2) /
      (Real.sqrt (a.1 ^ 2 + a.2 ^ 2) * Real.sqrt (b.1 ^ 2 + b.2 ^ 2))
    let angle := Real.arccos (np_clip cosAngle (-1) 1)
    1 + (circleData g first.circle).r * angle

/-- `Astar.get_heuristic`: straight-line distance from the node to the goal. -/
def get_heuristic (g : Graph) (goal n : ℕ) : ℝ :=
  dist (nodeData g n).position (nodeData g goal).position

/-- Association-list update with Python-dict semantics (replace in place). -/
def upsert {α : Type} (k : ℕ) (v : α) : List (ℕ × α) → List (ℕ × α)
  | [] => [(k, v)]
  | (k0, v0) :: t => if k0 = k then (k, v) :: t else (k0, v0) :: upsert k v t

/-- Association-list lookup (`d[k]`, as an `Option`: `none` is a `KeyError`). -/
def alookup {α : Type} (k : ℕ) : List (ℕ × α) → Option α
  | [] => none
  | (k0, v0) :: t => if k0 = k then some v0 else alookup k t

/-- The heap order on `(priority, node)` entries: priority first, then the
id-based tie-break of `Node.__lt__`. -/
def entryLe (a b : ℝ × ℕ) : Prop :=
  a.1 < b.1 ∨ (a.1 = b.1 ∧ a.2 ≤ b.2)

/-- `PriorityQueue.get`: remove a minimal entry (tuple order). -/
def popMin : List (ℝ × ℕ) → Option ((ℝ × ℕ) × List (ℝ × ℕ))
  | [] => none
  | x :: xs =>
    match popMin xs with
    | none => some (x, [])
    | some (m, r) => if entryLe x m then some (x, xs) else some (m, x :: r)

/-- The search state: frontier, predecessor map (`explored`), cost map. -/
structure SState where
  frontier : List (ℝ × ℕ)
  explored : List (ℕ × Option ℕ)
  cost : List (ℕ × ℝ)

/-- One iteration of the neighbor loop of `calculate_path`: relax `nb` from
`cur`, updating cost and predecessor and pushing a new frontier entry when the
new cost improves (or the neighbor is undiscovered). -/
def relaxNeighbor (g : Graph) (goal cur : ℕ) (st : SState) (nb : ℕ × GEdge) :
    Option SState :=
  match alookup cur st.cost with
  | none => none
  | some c =>
    let ncost := c + get_edge_cost g nb.2
    if (alookup nb.1 st.cost).elim True (fun old => ncost < old) then
      some { frontier := st.frontier ++ [(ncost + get_heuristic g goal nb.1, nb.1)],
             explored := upsert nb.1 (some cur) st.explored,
             cost := upsert nb.1 ncost st.cost }
    else some st

/-- The full neighbor loop for a popped node. -/
def expandNode (g : Graph) (goal cur : ℕ) (st : SState) : Option SState :=
  (get_neighbors g cur).foldlM (relaxNeighbor g goal cur) st

/-- The `while not self.frontier.empty()` loop, with pop-goal termination: the
goal ends the search when dequeued, not when discovered.  `fuel` bounds the
number of iterations; `none` means the bound was hit (or a `KeyError`). -/
def astarLoop (g : Graph) (goal : ℕ) : ℕ → SState → Option SState
  | 0, st =>
    match popMin st.frontier with
    | none => some st
    | some _ => none
  | fuel + 1, st =>
    match popMin st.frontier with
    | none => some st
    | some ((_, cur), rest) =>
      if cur = goal then some { st with frontier := rest }
      else
        match expandNode g goal cur { st with frontier := rest } with
        | none => none
        | some st2 => astarLoop g goal fuel st2

/-- The reconstruction loop: walk predecessors from the goal until the start.
`none` models the `KeyError` the source raises when the goal was never
discovered (and the non-termination a predecessor cycle would cause). -/
def reconstructGo (explored : List (ℕ × Option ℕ)) (start : ℕ) :
    ℕ → ℕ → List ℕ → Option (List ℕ)
  | 0, _, _ => none
  | f + 1, cur, acc =>
    if cur = start then some (start :: acc)
    else
      match alookup cur explored with
      | none => none
      | some none => none
      | some (some u) => reconstructGo explored start f u (cur :: acc)

/-- Path reconstruction (append start, reverse — realised by accumulation). -/
def reconstructPath (explored : List (ℕ × Option ℕ)) (start goal : ℕ) :
    Option (List ℕ) :=
  reconstructGo explored start (explored.length + 1) goal []

/-- The initial search state of `calculate_path`: frontier `[(0, start)]`,
`explored = {start: None}`, `cost = {start: 0}`. -/
def initState (start : ℕ) : SState :=
  ⟨[(0, start)], [(start, none)], [(start, 0)]⟩

/-- `Astar.calculate_path` on a prepared graph. -/
def calculate_path (g : Graph) (start goal : ℕ) (fuel : ℕ) : Option (List ℕ) :=
  match astarLoop g goal fuel (initState start) with
  | none => none
  | some st => reconstructPath st.explored start goal

/-! ## Walks in the graph (for stating optimality) -/

/-- The edge `e` joins nodes `u` and `v` (in either stored orientation). -/
def connects (e : GEdge) (u v : ℕ) : Prop :=
  (e.first = u ∧ e.second = v) ∨ (e.first = v ∧ e.second = u)

/-- `stepsFrom g u ws v`: the list of (edge, arrival-node) steps `ws` is a walk
through edges of `g` from `u` to `v`. -/
def stepsFrom (g : Graph) : ℕ → List (GEdge × ℕ) → ℕ → Prop
  | u, [], v => u = v
  | u, s :: rest, v => s.1 ∈ get_edges g ∧ connects s.1 u s.2 ∧ stepsFrom g s.2 rest v

/-- Total cost of a walk: the sum of its edge costs. -/
def walkWeight (g : Graph) (ws : List (GEdge × ℕ)) : ℝ :=
  (ws.map fun s => get_edge_cost g s.1).sum

/-- The node sequence visited by a walk starting at `u`. -/
def walkNodes (u : ℕ) (ws : List (GEdge × ℕ)) : List ℕ :=
  u :: ws.map Prod.snd

/-! ## Toolpath emission (`mags/move_manager.py`, class `MoveManager`)

`trace_path` receives node objects directly, so its nodes are embedded
self-contained: the circle data together with the circle object's identity
(`is` in the source compares identities). -/

/-- A node as seen by the toolpath emitter. -/
structure MNode where
  circle : Circle
  circleId : ℕ
  position : ℝ × ℝ

/-- One emitted instruction line: the `G90` prefix, a linear move `G1 X Y`, or an
arc move `G2`/`G3 X Y I J` (`ccw = true` for `G3`). -/
inductive Instr where
  | g90 : Instr
  | linear : ℝ × ℝ → Instr
  | arc : Bool → ℝ × ℝ → ℝ → ℝ → Instr

/-- `MoveManager.generate_linear_gcode`. -/
def generate_linear_gcode (node : MNode) : Instr :=
  Instr.linear node.position

/-- `MoveManager.generate_arc_gcode`: normalize both endpoint angles into
`[0, 2π)`, swap them when they differ by more than π, choose `G3` (CCW) when the
(possibly swapped) end angle exceeds the start angle, and emit I/J offsets from
the arc start to the center. -/
def generate_arc_gcode (circle : Circle) (startNode endNode : MNode) : Instr :=
  let startPosition := startNode.position
  let endPosition := endNode.position
  let arcCenter := circle.center
  let arcStart := zero_to_2pi (v2v_angle arcCenter startPosition)
  let arcEnd := zero_to_2pi (v2v_angle arcCenter endPosition)
  let p := if |arcStart - arcEnd| > Real.pi then (arcEnd, arcStart) else (arcStart, arcEnd)
  Instr.arc (if p.1 < p.2 then true else false) endPosition
    (arcCenter.1 - startPosition.1) (arcCenter.2 - startPosition.2)

/-- The loop of `MoveManager.trace_path` from its second node on: `arcStart?` is
the pending `arc_start`, `prev` the node `path[i-1]`.  Same-circle hops with a new
position only record or keep the run's start; a hop to a different circle closes
any pending run (arc instruction, then linear); the loop's end emits nothing. -/
def traceGo : Option MNode → MNode → List MNode → List Instr
  | _, _, [] => []
  | arcStart?, prev, cur :: rest =>
    if cur.circleId = prev.circleId then
      if cur.position = prev.position then traceGo arcStart? cur rest
      else
        match arcStart? with
        | none => traceGo (some prev) cur rest
        | some a => traceGo (some a) cur rest
    else
      match arcStart? with
      | some a =>
        generate_arc_gcode a.circle a prev :: generate_linear_gcode cur :: traceGo none cur rest
      | none => generate_linear_gcode cur :: traceGo none cur rest

/-- `MoveManager.trace_path`: `G90`, a linear move to the first node, then the
pair-walking loop.  (The source indexes `path[0]` unconditionally; the empty
case, which would raise, is embedded as the bare prefix and never used.) -/
def trace_path (path : List MNode) : List Instr :=
  match path with
  | [] => [Instr.g90]
  | start :: rest => Instr.g90 :: generate_linear_gcode start :: traceGo none start rest

/-- Whether an instruction is an arc instruction. -/
def isArc : Instr → Bool
  | Instr.arc _ _ _ _ => true
  | _ => false

/-- Number of arc instructions in an emitted stream. -/
def countArcs (l : List Instr) : ℕ :=
  (l.filter isArc).length

/-! ## Counting lemmas for the bitangent phase (claim C4) -/

theorem add_internal_counts (g : Graph) (c1 c2 : ℕ) :
    (add_internal_bitangets g c1 c2).nodes.length = g.nodes.length + 4 ∧
      (add_internal_bitangets g c1 c2).surfing_edges.length = g.surfing_edges.length + 2 := by
  simp [add_internal_bitangets]

theorem add_external_counts (g : Graph) (c1 c2 : ℕ) :
    (add_external_bitangets g c1 c2).nodes.length = g.nodes.length + 4 ∧
      (add_external_bitangets g c1 c2).surfing_edges.length = g.surfing_edges.length + 2 := by
  simp [add_external_bitangets]

theorem bitangent_fold_counts (l : List (ℕ × ℕ)) (g : Graph) :
    ((l.foldl (fun h p => add_external_bitangets (add_internal_bitangets h p.2 p.1) p.2 p.1)
        g).nodes.length = g.nodes.length + 8 * l.length) ∧
      ((l.foldl (fun h p => add_external_bitangets (add_internal_bitangets h p.2 p.1) p.2 p.1)
        g).surfing_edges.length = g.surfing_edges.length + 4 * l.length) := by
  induction l generalizing g with
  | nil => simp
  | cons p t ih =>
    have hn : (add_external_bitangets (add_internal_bitangets g p.2 p.1) p.2 p.1).nodes.length =
        g.nodes.length + 8 := by
      simp [add_internal_bitangets, add_external_bitangets]
    have he :
        (add_external_bitangets (add_internal_bitangets g p.2 p.1) p.2 p.1).surfing_edges.length =
          g.surfing_edges.length + 4 := by
      simp [add_internal_bitangets, add_external_bitangets]
    obtain ⟨ihn, ihe⟩ := ih (add_external_bitangets (add_internal_bitangets g p.2 p.1) p.2 p.1)
    refine ⟨?_, ?_⟩
    · rw [List.foldl_cons, ihn, hn, List.length_cons]
      ring
    · rw [List.foldl_cons, ihe, he, List.length_cons]
      ring

theorem filterMap_offdiag_length (i : ℕ) (l : List ℕ) :
    (l.filterMap fun j => if j = i then none else some (i, j)).length =
      l.length - l.count i := by
  induction l with
  | nil => simp
  | cons j t ih =>
    by_cases hj : j = i
    · subst hj
      have := List.count_le_length (l := t) (a := j)
      simp [List.filterMap_cons, ih, List.count_cons]
    · have := List.count_le_length (l := t) (a := i)
      simp [List.filterMap_cons, hj, ih, List.count_cons, Ne.symm hj]
      omega

theorem orderedPairs_length (n : ℕ) : (orderedPairs n).length = n * (n - 1) := by
  unfold orderedPairs
  rw [List.length_flatten, List.map_map]
  have h : ((List.range n).map fun i =>
      ((List.range n).filterMap fun j => if j = i then none else some (i, j)).length) =
      (List.range n).map fun _ => n - 1 := by
    apply List.map_congr_left
    intro i hi
    rw [filterMap_offdiag_length, List.length_range,
      List.count_eq_one_of_mem (List.nodup_range n) hi]
  simp only [Function.comp_def] at h ⊢
  rw [h, List.map_const', List.sum_replicate, List.length_range, smul_eq_mul]

/-- C4, counterexample: with the two-disc set `{radius-1 at (0,0), radius-1 at (4,0)}`
the bitangent phase of `Graph.__init__` produces 16 nodes and 8 surfing edges for the
single unordered pair, not the claimed 8 nodes and 4 surfing edges — the double loop
visits both orderings of the pair, so every bitangent is constructed twice. -/
theorem C4_counterexample :
    (addAllBitangents [⟨1, (0, 0)⟩, ⟨1, (4, 0)⟩]).nodes.length = 16 ∧
      (addAllBitangents [⟨1, (0, 0)⟩, ⟨1, (4, 0)⟩]).surfing_edges.length = 8 ∧
      ¬ ((addAllBitangents [⟨1, (0, 0)⟩, ⟨1, (4, 0)⟩]).nodes.length = 8 ∧
        (addAllBitangents [⟨1, (0, 0)⟩, ⟨1, (4, 0)⟩]).surfing_edges.length = 4) := by
  have h := bitangent_fold_counts (orderedPairs 2) ⟨[⟨1, (0, 0)⟩, ⟨1, (4, 0)⟩], [], [], []⟩
  rw [orderedPairs_length] at h
  unfold addAllBitangents
  refine ⟨?_, ?_, ?_⟩
  · rw [show ([⟨1, (0, 0)⟩, ⟨1, (4, 0)⟩] : List Circle).length = 2 from rfl, h.1]
    simp
  · rw [show ([⟨1, (0, 0)⟩, ⟨1, (4, 0)⟩] : List Circle).length = 2 from rfl, h.2]
    simp
  · rw [show ([⟨1, (0, 0)⟩, ⟨1, (4, 0)⟩] : List Circle).length = 2 from rfl]
    rintro ⟨h8, -⟩
    rw [h.1] at h8
    simp at h8

/-- C4, amended: `Graph.__init__` iterates over *ordered* pairs of distinct discs,
calling the internal and external bitangent constructions once per ordering, each
call adding 4 nodes and 2 surfing edges; so a set of `n` discs yields `8·n·(n−1)`
nodes and `4·n·(n−1)` surfing edges before pruning — each unordered pair
contributes 16 nodes and 8 surfing edges (every bitangent duplicated), twice the
claimed amounts. -/
theorem C4_amended (cs : List Circle) :
    (addAllBitangents cs).nodes.length = 8 * (cs.length * (cs.length - 1)) ∧
      (addAllBitangents cs).surfing_edges.length = 4 * (cs.length * (cs.length - 1)) := by
  have h := bitangent_fold_counts (orderedPairs cs.length) ⟨cs, [], [], []⟩
  rw [orderedPairs_length] at h
  unfold addAllBitangents
  constructor
  · rw [h.1]
    simp [Nat.mul_comm]
  · rw [h.2]
    simp [Nat.mul_comm]

/-! ## Claim C7: arc-run accumulation in `trace_path` -/

/-- C7, counterexample: a path of three distinct-position nodes on one disc (in
angular order) whose arc run is still pending when the path ends.  `trace_path`
emits no arc instruction at all — the pending run is dropped, not closed — where
the claim requires exactly one arc spanning the first to the third node. -/
theorem C7_counterexample :
    countArcs (trace_path
      [⟨⟨1, (0, 0)⟩, 0, (1, 0)⟩, ⟨⟨1, (0, 0)⟩, 0, (0, 1)⟩, ⟨⟨1, (0, 0)⟩, 0, (-1, 0)⟩]) = 0 ∧
      countArcs (trace_path
        [⟨⟨1, (0, 0)⟩, 0, (1, 0)⟩, ⟨⟨1, (0, 0)⟩, 0, (0, 1)⟩, ⟨⟨1, (0, 0)⟩, 0, (-1, 0)⟩]) ≠ 1 := by
  have h : trace_path
      ([⟨⟨1, (0, 0)⟩, 0, (1, 0)⟩, ⟨⟨1, (0, 0)⟩, 0, (0, 1)⟩, ⟨⟨1, (0, 0)⟩, 0, (-1, 0)⟩] :
        List MNode) = [Instr.g90, Instr.linear (1, 0)] := by
    have h1 : ((0, 1) : ℝ × ℝ) ≠ (1, 0) := by
      simp [Prod.ext_iff]
    have h2 : ((-1, 0) : ℝ × ℝ) ≠ (0, 1) := by
      simp [Prod.ext_iff]
    simp [trace_path, traceGo, generate_linear_gcode, h1, h2]
  rw [h]
  constructor
  · rfl
  · simp [countArcs, isArc]

/-- C7, amended: consecutive same-disc hops are accumulated into a single arc run
and one arc instruction per run is emitted when a hop leaves the disc — so three
consecutive same-disc nodes followed by a node on another disc emit exactly one
arc from the first of the three to the third, followed by the linear move.  A run
still pending at the end of the path is dropped (no closing arc is emitted). -/
theorem C7_amended (a b c d : MNode)
    (hab : b.circleId = a.circleId) (hbc : c.circleId = b.circleId)
    (hcd : d.circleId ≠ c.circleId)
    (pab : b.position ≠ a.position) (pbc : c.position ≠ b.position) :
    trace_path [a, b, c, d] =
      [Instr.g90, generate_linear_gcode a, generate_arc_gcode a.circle a c,
        generate_linear_gcode d] ∧
      countArcs (trace_path [a, b, c, d]) = 1 := by
  have hcd2 : d.circleId ≠ a.circleId := by
    rw [← hab, ← hbc]
    exact hcd
  have h : trace_path [a, b, c, d] =
      [Instr.g90, generate_linear_gcode a, generate_arc_gcode a.circle a c,
        generate_linear_gcode d] := by
    simp [trace_path, traceGo, hab, hbc, hcd, hcd2, pab, pbc]
  refine ⟨h, ?_⟩
  rw [h]
  simp [countArcs, isArc, generate_linear_gcode, generate_arc_gcode]

/-! ## Claim C6: point-to-circle tangents with `d < r` -/

/-- The graph containing a single radius-2 disc at the origin. -/
def C6graph : Graph :=
  ⟨[⟨2, (0, 0)⟩], [], [], []⟩

/-- The shape of `add_tangents` on a nonzero-radius target: two tangent-contact
nodes on the circle and two surfing edges from the point node, whatever the
geometry (in particular with no `d ≥ r` precondition). -/
theorem add_tangents_structure (g : Graph) (pn c : ℕ) (hr : (circleData g c).r ≠ 0) :
    ∃ p q, add_tangents g pn c =
      { g with
        nodes := g.nodes ++ [⟨c, p⟩, ⟨c, q⟩],
        surfing_edges := g.surfing_edges ++
          [⟨pn, g.nodes.length, true⟩, ⟨pn, g.nodes.length + 1, true⟩] } := by
  refine ⟨transform_polar (circleData g c).center (circleData g c).r
      (v2v_angle (circleData g c).center (nodeData g pn).position -
        Real.arccos ((circleData g c).r /
          dist (nodeData g pn).position (circleData g c).center)),
    transform_polar (circleData g c).center (circleData g c).r
      (v2v_angle (circleData g c).center (nodeData g pn).position +
        Real.arccos ((circleData g c).r /
          dist (nodeData g pn).position (circleData g c).center)), ?_⟩
  unfold add_tangents
  rw [if_neg hr]

/-- C6, counterexample: inserting the point `(1, 0)` — which lies strictly inside
the radius-2 disc at the origin, so `d = 1 < 2 = rC` — does not fail: `add_point`
silently produces the two tangent nodes and the two surfing edges joining the
point to them (their coordinates are `nan` in the implementation), leaving 3 nodes
and 2 surfing edges, instead of surfacing a planning failure. -/
theorem C6_counterexample :
    dist (1, 0) (0, 0) < (2 : ℝ) ∧
      (add_point C6graph ⟨0, (1, 0)⟩ (1, 0)).nodes.length = 3 ∧
      (add_point C6graph ⟨0, (1, 0)⟩ (1, 0)).surfing_edges.length = 2 := by
  have hdist : dist (1, 0) (0, 0) = (1 : ℝ) := by
    unfold dist
    norm_num
  obtain ⟨p, q, heq⟩ := add_tangents_structure
    (⟨[⟨2, (0, 0)⟩, ⟨0, (1, 0)⟩], [⟨1, (1, 0)⟩], [], []⟩ : Graph) 0 0
    (by norm_num [circleData])
  have heq2 : add_tangents
      (⟨[⟨2, (0, 0)⟩, ⟨0, (1, 0)⟩], [⟨1, (1, 0)⟩], [], []⟩ : Graph) 0 0 =
      ⟨[⟨2, (0, 0)⟩, ⟨0, (1, 0)⟩], [⟨1, (1, 0)⟩, ⟨0, p⟩, ⟨0, q⟩],
        [⟨0, 1, true⟩, ⟨0, 2, true⟩], []⟩ := by
    rw [heq]
    rfl
  have hpoint : add_point C6graph ⟨0, (1, 0)⟩ (1, 0) =
      add_hugging_edges (clean_surfing_edges
        (⟨[⟨2, (0, 0)⟩, ⟨0, (1, 0)⟩], [⟨1, (1, 0)⟩, ⟨0, p⟩, ⟨0, q⟩],
          [⟨0, 1, true⟩, ⟨0, 2, true⟩], []⟩ : Graph)) := by
    show add_hugging_edges (clean_surfing_edges
      ((List.range 1).foldl
        (fun h oc => add_tangents h 0 oc)
        ⟨[⟨2, (0, 0)⟩, ⟨0, (1, 0)⟩], [⟨1, (1, 0)⟩], [], []⟩)) = _
    rw [show List.range 1 = [0] from rfl, List.foldl_cons, List.foldl_nil, heq2]
  have hnc1 : ¬ check_intersection
      (⟨[⟨2, (0, 0)⟩, ⟨0, (1, 0)⟩], [⟨1, (1, 0)⟩, ⟨0, p⟩, ⟨0, q⟩],
        [⟨0, 1, true⟩, ⟨0, 2, true⟩], []⟩ : Graph) ⟨0, 1, true⟩ := by
    rintro ⟨ci, hci, hf, hs, -⟩
    simp [nodeData, List.getD] at hf hs
    simp at hci
    omega
  have hnc2 : ¬ check_intersection
      (⟨[⟨2, (0, 0)⟩, ⟨0, (1, 0)⟩], [⟨1, (1, 0)⟩, ⟨0, p⟩, ⟨0, q⟩],
        [⟨0, 1, true⟩, ⟨0, 2, true⟩], []⟩ : Graph) ⟨0, 2, true⟩ := by
    rintro ⟨ci, hci, hf, hs, -⟩
    simp [nodeData, List.getD] at hf hs
    simp at hci
    omega
  refine ⟨by rw [hdist]; norm_num, ?_, ?_⟩
  · rw [hpoint]
    rfl
  · rw [hpoint]
    show (removeIntersecting _ _).length = 2
    unfold removeIntersecting
    rw [if_neg hnc1]
    unfold removeIntersecting
    rw [if_neg hnc2]
    rfl

/-- C6, amended: `add_tangents` performs no `d ≥ rC` check at all: even when the
point lies strictly inside the nonzero-radius disc (`d < rC`, where numpy's
`arccos(rC/d)` yields `nan`), it still appends exactly two tangent-contact nodes
on the disc and two surfing edges from the point to them, and planning continues
silently rather than failing. -/
theorem C6_amended (g : Graph) (pn c : ℕ)
    (hr : (circleData g c).r ≠ 0)
    (_hd : dist (nodeData g pn).position (circleData g c).center < (circleData g c).r) :
    (add_tangents g pn c).nodes.length = g.nodes.length + 2 ∧
      (add_tangents g pn c).surfing_edges.length = g.surfing_edges.length + 2 := by
  unfold add_tangents
  rw [if_neg hr]
  simp

/-- Witness for C6's amended theorem: the point `(1, 0)` inside the radius-2 disc
at the origin. -/
theorem C6_amended_witness :
    (add_tangents ⟨[⟨2, (0, 0)⟩], [⟨1, (1, 0)⟩], [], []⟩ 0 0).nodes.length = 3 ∧
      (add_tangents ⟨[⟨2, (0, 0)⟩], [⟨1, (1, 0)⟩], [], []⟩ 0 0).surfing_edges.length = 2 := by
  have h := C6_amended ⟨[⟨2, (0, 0)⟩], [⟨1, (1, 0)⟩], [], []⟩ 0 0
    (by norm_num [circleData])
    (by
      show dist (1, 0) (0, 0) < _
      unfold dist
      norm_num [circleData])
  simpa using h

/-! ## Normalization and angle lemmas -/

theorem zero_to_2pi_of_mem (θ : ℝ) (h0 : 0 ≤ θ) (h1 : θ < 2 * Real.pi) :
    zero_to_2pi θ = θ := by
  unfold zero_to_2pi
  have hpos : (0 : ℝ) < 2 * Real.pi := by positivity
  have : ⌊θ / (2 * Real.pi)⌋ = 0 := by
    rw [Int.floor_eq_zero_iff]
    constructor
    · exact div_nonneg h0 hpos.le
    · rw [div_lt_one hpos]
      exact h1
  rw [this]
  simp

theorem zero_to_2pi_of_neg (θ : ℝ) (h0 : -(2 * Real.pi) ≤ θ) (h1 : θ < 0) :
    zero_to_2pi θ = θ + 2 * Real.pi := by
  unfold zero_to_2pi
  have hpos : (0 : ℝ) < 2 * Real.pi := by positivity
  have : ⌊θ / (2 * Real.pi)⌋ = -1 := by
    rw [Int.floor_eq_iff]
    constructor
    · push_cast
      rw [le_div_iff₀ hpos]
      linarith
    · push_cast
      rw [div_lt_iff₀ hpos]
      linarith
  rw [this]
  push_cast
  ring

theorem zero_to_2pi_nonneg (θ : ℝ) : 0 ≤ zero_to_2pi θ := by
  unfold zero_to_2pi
  have hpos : (0 : ℝ) < 2 * Real.pi := by positivity
  have h := Int.floor_le (θ / (2 * Real.pi))
  have := (mul_le_mul_left hpos).mpr h
  rw [mul_div_cancel₀ _ hpos.ne.symm] at this
  linarith

theorem zero_to_2pi_lt (θ : ℝ) : zero_to_2pi θ < 2 * Real.pi := by
  unfold zero_to_2pi
  have hpos : (0 : ℝ) < 2 * Real.pi := by positivity
  have h := Int.lt_floor_add_one (θ / (2 * Real.pi))
  have := (mul_lt_mul_left hpos).mpr h
  rw [mul_div_cancel₀ _ hpos.ne.symm] at this
  nlinarith [this]

/-! ## Hugging-edge structure (claims C3 and C10) -/

theorem mem_firstDedup : ∀ (l : List ℕ) (a : ℕ), a ∈ firstDedup l ↔ a ∈ l := by
  intro l
  induction l using firstDedup.induct with
  | case1 => simp [firstDedup]
  | case2 x t ih =>
    intro a
    rw [firstDedup]
    by_cases hax : a = x
    · subst hax
      simp
    · simp only [List.mem_cons, hax, false_or, ih, List.mem_filter]
      simp [hax]

theorem nodup_firstDedup : ∀ l : List ℕ, (firstDedup l).Nodup := by
  intro l
  induction l using firstDedup.induct with
  | case1 => simp [firstDedup]
  | case2 x t ih =>
    rw [firstDedup]
    refine List.Nodup.cons ?_ ih
    intro hx
    rw [mem_firstDedup] at hx
    have := (List.mem_filter.mp hx).2
    simp at this

theorem mem_nodesOnCircle (g : Graph) (c i : ℕ) :
    i ∈ nodesOnCircle g c ↔ i < g.nodes.length ∧ (nodeData g i).circle = c := by
  unfold nodesOnCircle
  simp only [List.mem_filterMap, List.mem_range]
  constructor
  · rintro ⟨j, hj, hcond⟩
    by_cases h : (nodeData g j).circle = c
    · rw [if_pos h] at hcond
      obtain rfl := Option.some_injective _ hcond
      exact ⟨hj, h⟩
    · rw [if_neg h] at hcond
      exact absurd hcond (Option.some_ne_none _).symm
  · rintro ⟨hi, hc⟩
    exact ⟨i, hi, by rw [if_pos hc]⟩

theorem mem_nonzeroCirclesInOrder (g : Graph) (c : ℕ) :
    c ∈ nonzeroCirclesInOrder g ↔
      (circleData g c).r ≠ 0 ∧ ∃ nd ∈ g.nodes, nd.circle = c := by
  unfold nonzeroCirclesInOrder
  rw [mem_firstDedup]
  simp only [List.mem_filterMap]
  constructor
  · rintro ⟨nd, hnd, hcond⟩
    by_cases h : (circleData g nd.circle).r = 0
    · rw [if_pos h] at hcond
      exact absurd hcond (Option.some_ne_none _).symm
    · rw [if_neg h] at hcond
      obtain rfl := Option.some_injective _ hcond
      exact ⟨h, nd, hnd, rfl⟩
  · rintro ⟨hr, nd, hnd, hc⟩
    refine ⟨nd, hnd, ?_⟩
    rw [hc, if_neg hr]

theorem cyclePairs_mem {l : List ℕ} {e : GEdge} (h : e ∈ cyclePairs l) :
    e.first ∈ l ∧ e.second ∈ l ∧ e.surfing = false := by
  unfold cyclePairs at h
  rw [List.mem_iff_getElem] at h
  obtain ⟨i, hi, hx⟩ := h
  rw [List.getElem_zipWith] at hx
  have h1 : i < l.length := lt_of_lt_of_le hi
    (by rw [List.length_zipWith]; exact Nat.min_le_left _ _)
  have h2 : i < (l.rotate 1).length := lt_of_lt_of_le hi
    (by rw [List.length_zipWith]; exact Nat.min_le_right _ _)
  subst hx
  exact ⟨List.getElem_mem h1, List.mem_rotate.mp (List.getElem_mem h2), rfl⟩

theorem cyclePairs_length (l : List ℕ) : (cyclePairs l).length = l.length := by
  simp [cyclePairs]

/-- The hugging edges whose first endpoint lies on circle `c`. -/
def edgesOnCircle (g : Graph) (c : ℕ) (l : List GEdge) : List GEdge :=
  l.filter fun e => decide ((nodeData g e.first).circle = c)

theorem edgesOnCircle_flatten (g : Graph) (c : ℕ) (cl : List ℕ) (hnd : cl.Nodup) :
    edgesOnCircle g c ((cl.map fun d => cyclePairs (nodesOnCircle g d)).flatten) =
      if c ∈ cl then cyclePairs (nodesOnCircle g c) else [] := by
  induction cl with
  | nil => simp [edgesOnCircle]
  | cons c0 t ih =>
    have hnd2 : t.Nodup := hnd.of_cons
    unfold edgesOnCircle at ih ⊢
    rw [List.map_cons, List.flatten_cons, List.filter_append, ih hnd2]
    by_cases hc : c = c0
    · subst hc
      have hblock : (cyclePairs (nodesOnCircle g c)).filter
          (fun e => decide ((nodeData g e.first).circle = c)) =
          cyclePairs (nodesOnCircle g c) := by
        apply List.filter_eq_self.mpr
        intro e he
        have := ((mem_nodesOnCircle g c e.first).mp (cyclePairs_mem he).1).2
        simp [this]
      have hnotmem : c ∉ t := (List.nodup_cons.mp hnd).1
      rw [hblock, if_neg hnotmem, if_pos (List.mem_cons_self c t), List.append_nil]
    · have hblock : (cyclePairs (nodesOnCircle g c0)).filter
          (fun e => decide ((nodeData g e.first).circle = c)) = [] := by
        apply List.filter_eq_nil_iff.mpr
        intro e he
        have := ((mem_nodesOnCircle g c0 e.first).mp (cyclePairs_mem he).1).2
        simp [this, Ne.symm hc, hc]
      rw [hblock, List.nil_append]
      by_cases hct : c ∈ t
      · rw [if_pos hct, if_pos (List.mem_cons_of_mem c0 hct)]
      · rw [if_neg hct, if_neg (by simp [hc, hct])]

/-- If no node of the graph lies on circle `c`, `nodesOnCircle` is empty. -/
theorem nodesOnCircle_eq_nil (g : Graph) (c : ℕ)
    (h : ¬ ∃ nd ∈ g.nodes, nd.circle = c) : nodesOnCircle g c = [] := by
  rw [List.eq_nil_iff_forall_not_mem]
  intro i hi
  obtain ⟨hlt, hc⟩ := (mem_nodesOnCircle g c i).mp hi
  refine h ⟨nodeData g i, ?_, hc⟩
  unfold nodeData
  rw [List.getD_eq_getElem _ _ hlt]
  exact List.getElem_mem hlt

/-- C3, amended: after `add_hugging_edges`, the hugging edges on each
nonzero-radius disc carrying `k` nodes are exactly the `k` edges of the single
cycle through its nodes in *node-insertion* order (consecutive pairs, last
wrapped to first) — the source never sorts by angle; radius-0 discs contribute
no hugging edges. -/
theorem C3_amended (g : Graph) (c : ℕ) :
    ((circleData g c).r ≠ 0 →
      edgesOnCircle g c (add_hugging_edges g).hugging_edges =
          cyclePairs (nodesOnCircle g c) ∧
        (edgesOnCircle g c (add_hugging_edges g).hugging_edges).length =
          (nodesOnCircle g c).length) ∧
      ((circleData g c).r = 0 →
        edgesOnCircle g c (add_hugging_edges g).hugging_edges = []) := by
  have hhug : (add_hugging_edges g).hugging_edges =
      ((nonzeroCirclesInOrder g).map fun d => cyclePairs (nodesOnCircle g d)).flatten := rfl
  have hext := edgesOnCircle_flatten g c (nonzeroCirclesInOrder g)
    (nodup_firstDedup _)
  constructor
  · intro hr
    by_cases hc : c ∈ nonzeroCirclesInOrder g
    · rw [hhug, hext, if_pos hc]
      exact ⟨rfl, cyclePairs_length _⟩
    · have hno : ¬ ∃ nd ∈ g.nodes, nd.circle = c := by
        intro hex
        exact hc ((mem_nonzeroCirclesInOrder g c).mpr ⟨hr, hex⟩)
      rw [hhug, hext, if_neg hc, nodesOnCircle_eq_nil g c hno]
      exact ⟨rfl, rfl⟩
  · intro hr
    have hc : c ∉ nonzeroCirclesInOrder g := by
      intro hmem
      exact ((mem_nonzeroCirclesInOrder g c).mp hmem).1 hr
    rw [hhug, hext, if_neg hc]

/-! ## Claim C2: the tangency case of the intersection test -/

/-- Membership in the pruning result: kept iff present and non-intersecting. -/
theorem mem_removeIntersecting (g : Graph) (e : GEdge) :
    ∀ l : List GEdge, e ∈ removeIntersecting g l ↔ e ∈ l ∧ ¬ check_intersection g e := by
  intro l
  induction l with
  | nil => simp [removeIntersecting]
  | cons a t ih =>
    unfold removeIntersecting
    by_cases ha : check_intersection g a
    · rw [if_pos ha, ih]
      constructor
      · rintro ⟨ht, hni⟩
        exact ⟨List.mem_cons_of_mem a ht, hni⟩
      · rintro ⟨hmem, hni⟩
        rcases List.mem_cons.mp hmem with rfl | ht
        · exact absurd ha hni
        · exact ⟨ht, hni⟩
    · rw [if_neg ha]
      constructor
      · intro hmem
        rcases List.mem_cons.mp hmem with rfl | ht
        · exact ⟨List.mem_cons_self _ _, ha⟩
        · obtain ⟨h1, h2⟩ := ih.mp ht
          exact ⟨List.mem_cons_of_mem a h1, h2⟩
      · rintro ⟨hmem, hni⟩
        rcases List.mem_cons.mp hmem with rfl | ht
        · exact List.mem_cons_self _ _
        · exact List.mem_cons_of_mem a (ih.mpr ⟨ht, hni⟩)

/-- If the center's projection falls inside the segment (both endpoint dot
products nonnegative), `check_circle_intersection` holds exactly when the
perpendicular distance is at most the radius. -/
theorem check_circle_intersection_of_inside (g : Graph) (c : Circle) (e : GEdge)
    (h1 : ¬ ((c.center.1 - (nodeData g e.first).position.1) *
        ((nodeData g e.second).position.1 - (nodeData g e.first).position.1) +
      (c.center.2 - (nodeData g e.first).position.2) *
        ((nodeData g e.second).position.2 - (nodeData g e.first).position.2) < 0))
    (h2 : ¬ ((c.center.1 - (nodeData g e.second).position.1) *
        ((nodeData g e.first).position.1 - (nodeData g e.second).position.1) +
      (c.center.2 - (nodeData g e.second).position.2) *
        ((nodeData g e.first).position.2 - (nodeData g e.second).position.2) < 0))
    (h3 : |((nodeData g e.second).position.1 - (nodeData g e.first).position.1) *
          (c.center.2 - (nodeData g e.first).position.2) -
        ((nodeData g e.second).position.2 - (nodeData g e.first).position.2) *
          (c.center.1 - (nodeData g e.first).position.1)| /
        dist (nodeData g e.second).position (nodeData g e.first).position ≤ c.r) :
    check_circle_intersection g c e := by
  simp only [check_circle_intersection]
  rw [if_neg h1, if_neg h2]
  exact h3

/-- The graph with point discs at `(0,0)` and `(10,0)`, their two nodes, the
direct surfing edge between them, and a third radius-1 disc at `(5,1)` to which
that segment is exactly tangent. -/
def C2graph : Graph :=
  ⟨[⟨0, (0, 0)⟩, ⟨0, (10, 0)⟩, ⟨1, (5, 1)⟩], [⟨0, (0, 0)⟩, ⟨1, (10, 0)⟩],
    [⟨0, 1, true⟩], []⟩

/-- C2, counterexample: for the segment from `(0,0)` to `(10,0)` and the radius-1
disc at `(5,1)` the minimum distance equals the radius exactly, yet
`check_circle_intersection` reports an intersection (the source compares
`d <= r`, non-strict) and the pruning pass *removes* the tangent surfing edge
instead of retaining it. -/
theorem C2_counterexample :
    check_circle_intersection C2graph ⟨1, (5, 1)⟩ ⟨0, 1, true⟩ ∧
      (clean_surfing_edges C2graph).surfing_edges = [] := by
  have hd : dist ((10 : ℝ), (0 : ℝ)) ((0 : ℝ), (0 : ℝ)) = 10 := by
    unfold dist
    rw [show ((10 : ℝ) - 0) ^ 2 + ((0 : ℝ) - 0) ^ 2 = 10 ^ 2 by ring]
    exact Real.sqrt_sq (by norm_num)
  have hpos1 : nodeData C2graph 0 = ⟨0, ((0 : ℝ), (0 : ℝ))⟩ := rfl
  have hpos2 : nodeData C2graph 1 = ⟨1, ((10 : ℝ), (0 : ℝ))⟩ := rfl
  have hcheck : check_circle_intersection C2graph ⟨1, (5, 1)⟩ ⟨0, 1, true⟩ := by
    apply check_circle_intersection_of_inside
    · rw [show (⟨0, 1, true⟩ : GEdge).first = 0 from rfl,
        show (⟨0, 1, true⟩ : GEdge).second = 1 from rfl, hpos1, hpos2]
      norm_num
    · rw [show (⟨0, 1, true⟩ : GEdge).first = 0 from rfl,
        show (⟨0, 1, true⟩ : GEdge).second = 1 from rfl, hpos1, hpos2]
      norm_num
    · rw [show (⟨0, 1, true⟩ : GEdge).first = 0 from rfl,
        show (⟨0, 1, true⟩ : GEdge).second = 1 from rfl, hpos1, hpos2]
      show |((10 : ℝ) - 0) * (1 - 0) - (0 - 0) * (5 - 0)| /
        dist ((10 : ℝ), (0 : ℝ)) ((0 : ℝ), (0 : ℝ)) ≤ 1
      rw [hd]
      norm_num
  refine ⟨hcheck, ?_⟩
  have hint : check_intersection C2graph ⟨0, 1, true⟩ := by
    refine ⟨2, by decide, by decide, by decide, ?_⟩
    exact hcheck
  show removeIntersecting C2graph [⟨0, 1, true⟩] = []
  unfold removeIntersecting
  rw [if_pos hint]
  rfl

/-- C2, amended: the comparison of `check_circle_intersection` is *non-strict*
(`d <= r`): when the center's projection falls inside the segment and the
perpendicular distance exactly equals the radius (tangency), the test reports an
intersection, and the pruning pass consequently removes the tangent surfing edge
whenever the tangent disc is a third disc of the graph. -/
theorem C2_amended (g : Graph) (e : GEdge) (c : Circle) (ci : ℕ)
    (hproj1 : 0 ≤ (c.center.1 - (nodeData g e.first).position.1) *
        ((nodeData g e.second).position.1 - (nodeData g e.first).position.1) +
      (c.center.2 - (nodeData g e.first).position.2) *
        ((nodeData g e.second).position.2 - (nodeData g e.first).position.2))
    (hproj2 : 0 ≤ (c.center.1 - (nodeData g e.second).position.1) *
        ((nodeData g e.first).position.1 - (nodeData g e.second).position.1) +
      (c.center.2 - (nodeData g e.second).position.2) *
        ((nodeData g e.first).position.2 - (nodeData g e.second).position.2))
    (htan : |((nodeData g e.second).position.1 - (nodeData g e.first).position.1) *
          (c.center.2 - (nodeData g e.first).position.2) -
        ((nodeData g e.second).position.2 - (nodeData g e.first).position.2) *
          (c.center.1 - (nodeData g e.first).position.1)| /
        dist (nodeData g e.second).position (nodeData g e.first).position = c.r)
    (hci : ci < g.circles.length) (hcirc : circleData g ci = c)
    (hne1 : ci ≠ (nodeData g e.first).circle) (hne2 : ci ≠ (nodeData g e.second).circle) :
    check_circle_intersection g c e ∧ e ∉ (clean_surfing_edges g).surfing_edges := by
  have hcheck : check_circle_intersection g c e :=
    check_circle_intersection_of_inside g c e (not_lt.mpr hproj1) (not_lt.mpr hproj2)
      (le_of_eq htan)
  refine ⟨hcheck, ?_⟩
  intro hmem
  have hint : check_intersection g e := ⟨ci, hci, hne1, hne2, by rw [hcirc]; exact hcheck⟩
  exact ((mem_removeIntersecting g e g.surfing_edges).mp hmem).2 hint

/-- Witness for C2's amended theorem at the tangent configuration of `C2graph`. -/
theorem C2_amended_witness :
    check_circle_intersection C2graph ⟨1, (5, 1)⟩ ⟨0, 1, true⟩ ∧
      GEdge.mk 0 1 true ∉ (clean_surfing_edges C2graph).surfing_edges := by
  have hd : dist ((10 : ℝ), (0 : ℝ)) ((0 : ℝ), (0 : ℝ)) = 10 := by
    unfold dist
    rw [show ((10 : ℝ) - 0) ^ 2 + ((0 : ℝ) - 0) ^ 2 = 10 ^ 2 by ring]
    exact Real.sqrt_sq (by norm_num)
  have hpos1 : nodeData C2graph 0 = ⟨0, ((0 : ℝ), (0 : ℝ))⟩ := rfl
  have hpos2 : nodeData C2graph 1 = ⟨1, ((10 : ℝ), (0 : ℝ))⟩ := rfl
  exact C2_amended C2graph ⟨0, 1, true⟩ ⟨1, (5, 1)⟩ 2
    (by
      rw [show (⟨0, 1, true⟩ : GEdge).first = 0 from rfl,
        show (⟨0, 1, true⟩ : GEdge).second = 1 from rfl, hpos1, hpos2]
      norm_num)
    (by
      rw [show (⟨0, 1, true⟩ : GEdge).first = 0 from rfl,
        show (⟨0, 1, true⟩ : GEdge).second = 1 from rfl, hpos1, hpos2]
      norm_num)
    (by
      rw [show (⟨0, 1, true⟩ : GEdge).first = 0 from rfl,
        show (⟨0, 1, true⟩ : GEdge).second = 1 from rfl, hpos1, hpos2]
      show |((10 : ℝ) - 0) * (1 - 0) - (0 - 0) * (5 - 0)| /
        dist ((10 : ℝ), (0 : ℝ)) ((0 : ℝ), (0 : ℝ)) = 1
      rw [hd]
      norm_num)
    (by decide)
    rfl
    (by decide)
    (by decide)

/-! ## Metric lemmas for `dist` -/

theorem dist_nonneg_pair (a b : ℝ × ℝ) : 0 ≤ dist a b :=
  Real.sqrt_nonneg _

theorem dist_self_pair (a : ℝ × ℝ) : dist a a = 0 := by
  unfold dist
  simp

theorem dist_comm_pair (a b : ℝ × ℝ) : dist a b = dist b a := by
  unfold dist
  congr 1
  ring

theorem dist_eq_complexAbs (a b : ℝ × ℝ) :
    dist a b = Complex.abs ⟨a.1 - b.1, a.2 - b.2⟩ := by
  unfold dist
  rw [Complex.abs_apply, Complex.normSq_mk]
  congr 1
  ring

theorem dist_triangle_pair (a b c : ℝ × ℝ) : dist a c ≤ dist a b + dist b c := by
  rw [dist_eq_complexAbs, dist_eq_complexAbs, dist_eq_complexAbs]
  have h : (⟨a.1 - c.1, a.2 - c.2⟩ : ℂ) = ⟨a.1 - b.1, a.2 - b.2⟩ + ⟨b.1 - c.1, b.2 - c.2⟩ := by
    apply Complex.ext <;> simp [Complex.add_re, Complex.add_im]
  rw [h]
  exact Complex.abs.add_le _ _

/-! ## Claim C9: hybrid edge cost dominates the chord; the heuristic is admissible -/

/-- Both endpoints of a hugging edge lie on the boundary of the first node's
circle (the data-model invariant of §3). -/
def hugOnCircle (g : Graph) (e : GEdge) : Prop :=
  dist (nodeData g e.first).position
      (circleData g (nodeData g e.first).circle).center =
    (circleData g (nodeData g e.first).circle).r ∧
  dist (nodeData g e.second).position
      (circleData g (nodeData g e.first).circle).center =
    (circleData g (nodeData g e.first).circle).r

theorem edge_cost_ge_chord (g : Graph) (e : GEdge)
    (hhug : e.surfing = false → hugOnCircle g e) :
    dist (nodeData g e.first).position (nodeData g e.second).position ≤
      get_edge_cost g e := by
  unfold get_edge_cost
  cases hsurf : e.surfing with
  | true =>
    rw [if_pos rfl]
    have := dist_nonneg_pair (nodeData g e.first).position (nodeData g e.second).position
    linarith
  | false =>
    obtain ⟨h1, h2⟩ := hhug hsurf
    rw [if_neg Bool.false_ne_true]
    set p1 := (nodeData g e.first).position
    set p2 := (nodeData g e.second).position
    set ctr := (circleData g (nodeData g e.first).circle).center
    set r := (circleData g (nodeData g e.first).circle).r
    set sa := (p1.1 - ctr.1) ^ 2 + (p1.2 - ctr.2) ^ 2 with hsa
    set sb := (p2.1 - ctr.1) ^ 2 + (p2.2 - ctr.2) ^ 2 with hsb
    have hsa0 : 0 ≤ sa := by positivity
    have hsb0 : 0 ≤ sb := by positivity
    have hsqa : Real.sqrt sa = r := h1
    have hsqb : Real.sqrt sb = r := h2
    have hr0 : 0 ≤ r := by
      rw [← hsqa]
      exact Real.sqrt_nonneg _
    have hra : sa = r ^ 2 := by
      rw [← hsqa, Real.sq_sqrt hsa0]
    have hrb : sb = r ^ 2 := by
      rw [← hsqb, Real.sq_sqrt hsb0]
    set dot := (p1.1 - ctr.1) * (p2.1 - ctr.1) + (p1.2 - ctr.2) * (p2.2 - ctr.2) with hdot
    show dist p1 p2 ≤ 1 + r * Real.arccos (np_clip (dot /
      (Real.sqrt sa * Real.sqrt sb)) (-1) 1)
    rcases eq_or_lt_of_le hr0 with hr | hr
    · -- degenerate radius 0: both endpoints coincide with the center
      have hsuma : (p1.1 - ctr.1) ^ 2 + (p1.2 - ctr.2) ^ 2 = 0 := by
        rw [← hsa, hra, ← hr]
        ring
      have hsumb : (p2.1 - ctr.1) ^ 2 + (p2.2 - ctr.2) ^ 2 = 0 := by
        rw [← hsb, hrb, ← hr]
        ring
      have hx1 : p1.1 - ctr.1 = 0 := by
        have h := sq_nonneg (p1.1 - ctr.1)
        have h2 := sq_nonneg (p1.2 - ctr.2)
        exact pow_eq_zero_iff two_ne_zero |>.mp (by linarith)
      have hy1 : p1.2 - ctr.2 = 0 := by
        have h := sq_nonneg (p1.1 - ctr.1)
        have h2 := sq_nonneg (p1.2 - ctr.2)
        exact pow_eq_zero_iff two_ne_zero |>.mp (by linarith)
      have hx2 : p2.1 - ctr.1 = 0 := by
        have h := sq_nonneg (p2.1 - ctr.1)
        have h2 := sq_nonneg (p2.2 - ctr.2)
        exact pow_eq_zero_iff two_ne_zero |>.mp (by linarith)
      have hy2 : p2.2 - ctr.2 = 0 := by
        have h := sq_nonneg (p2.1 - ctr.1)
        have h2 := sq_nonneg (p2.2 - ctr.2)
        exact pow_eq_zero_iff two_ne_zero |>.mp (by linarith)
      have hchord : dist p1 p2 = 0 := by
        unfold dist
        rw [show p1.1 - p2.1 = (p1.1 - ctr.1) - (p2.1 - ctr.1) by ring,
          show p1.2 - p2.2 = (p1.2 - ctr.2) - (p2.2 - ctr.2) by ring,
          hx1, hx2, hy1, hy2]
        norm_num
      rw [hchord, ← hr]
      norm_num
    · -- positive radius
      have hr2 : (0 : ℝ) < r ^ 2 := by positivity
      have cs : dot ^ 2 ≤ sa * sb := by
        rw [hsa, hsb, hdot]
        nlinarith [sq_nonneg ((p1.1 - ctr.1) * (p2.2 - ctr.2) - (p1.2 - ctr.2) * (p2.1 - ctr.1))]
      have habs : |dot| ≤ r ^ 2 := by
        rw [hra, hrb] at cs
        have h4 : dot ^ 2 ≤ (r ^ 2) ^ 2 := by nlinarith
        exact abs_le_of_sq_le_sq h4 (by positivity)
      have hden : Real.sqrt sa * Real.sqrt sb = r ^ 2 := by
        rw [hsqa, hsqb]
        ring
      set q := dot / (Real.sqrt sa * Real.sqrt sb) with hq
      have hq1 : -1 ≤ q := by
        rw [hq, hden]
        rw [le_div_iff₀ hr2]
        have := (abs_le.mp habs).1
        linarith
      have hq2 : q ≤ 1 := by
        rw [hq, hden]
        rw [div_le_one hr2]
        exact (abs_le.mp habs).2
      have hclip : np_clip q (-1) 1 = q := by
        unfold np_clip
        rw [min_eq_left hq2, max_eq_right hq1]
      rw [hclip]
      set φ := Real.arccos q with hφ
      have hcos : Real.cos φ = q := Real.cos_arccos hq1 hq2
      have hφ0 : 0 ≤ φ := Real.arccos_nonneg q
      have hφπ : φ ≤ Real.pi := Real.arccos_le_pi q
      -- chord² = 2r²(1 − cos φ) ≤ 2r²(φ²/2) = (rφ)²
      have hqval : dot = r ^ 2 * q := by
        rw [hq, hden]
        field_simp
      have hchordsq : (p1.1 - p2.1) ^ 2 + (p1.2 - p2.2) ^ 2 =
          2 * r ^ 2 * (1 - Real.cos φ) := by
        rw [hcos]
        have hexp : (p1.1 - p2.1) ^ 2 + (p1.2 - p2.2) ^ 2 = sa + sb - 2 * dot := by
          rw [hsa, hsb, hdot]
          ring
        rw [hexp, hra, hrb, hqval]
        ring
      have hkey : 1 - Real.cos φ ≤ φ ^ 2 / 2 := by
        have hs := Real.sin_sq_eq_half_sub (φ / 2)
        rw [show 2 * (φ / 2) = φ by ring] at hs
        have hsin_le : Real.sin (φ / 2) ≤ φ / 2 := Real.sin_le (by linarith)
        have hsin0 : 0 ≤ Real.sin (φ / 2) :=
          Real.sin_nonneg_of_nonneg_of_le_pi (by linarith) (by linarith)
        have hsq : Real.sin (φ / 2) ^ 2 ≤ (φ / 2) ^ 2 :=
          pow_le_pow_left₀ hsin0 hsin_le 2
        have h24 : (φ / 2) ^ 2 = φ ^ 2 / 4 := by ring
        rw [h24] at hsq
        linarith
      have hbound : (p1.1 - p2.1) ^ 2 + (p1.2 - p2.2) ^ 2 ≤ (r * φ) ^ 2 := by
        rw [hchordsq]
        have hmul := mul_le_mul_of_nonneg_left hkey (show (0 : ℝ) ≤ 2 * r ^ 2 by positivity)
        rw [show (r * φ) ^ 2 = 2 * r ^ 2 * (φ ^ 2 / 2) by ring]
        exact hmul
      have hchord : dist p1 p2 ≤ r * φ := by
        unfold dist
        calc Real.sqrt ((p1.1 - p2.1) ^ 2 + (p1.2 - p2.2) ^ 2)
            ≤ Real.sqrt ((r * φ) ^ 2) := Real.sqrt_le_sqrt hbound
          _ = r * φ := Real.sqrt_sq (by positivity)
      linarith

/-! ## Dictionary and priority-queue lemmas -/

theorem alookup_upsert {α : Type} (k k2 : ℕ) (v : α) (d : List (ℕ × α)) :
    alookup k2 (upsert k v d) = if k2 = k then some v else alookup k2 d := by
  induction d with
  | nil =>
    by_cases h : k2 = k
    · simp [upsert, alookup, h]
    · simp [upsert, alookup, h, Ne.symm h]
  | cons kv tl ih =>
    obtain ⟨k0, v0⟩ := kv
    by_cases h0 : k0 = k
    · subst h0
      by_cases h2 : k2 = k0
      · subst h2
        simp [upsert, alookup]
      · simp [upsert, alookup, h2, Ne.symm h2]
    · by_cases h2 : k2 = k0
      · subst h2
        simp [upsert, alookup, h0, Ne.symm h0]
      · simp [upsert, alookup, h0, h2, Ne.symm h2, ih]

theorem alookup_isSome_iff_mem_keys {α : Type} (k : ℕ) (d : List (ℕ × α)) :
    (alookup k d).isSome ↔ k ∈ d.map Prod.fst := by
  induction d with
  | nil => simp [alookup]
  | cons kv tl ih =>
    by_cases h : kv.1 = k
    · simp [alookup, h]
    · simp [alookup, h, Ne.symm h, ih]

theorem upsert_length_of_mem {α : Type} (k : ℕ) (v : α) (d : List (ℕ × α))
    (h : (alookup k d).isSome) : (upsert k v d).length = d.length := by
  induction d with
  | nil => simp [alookup] at h
  | cons kv tl ih =>
    obtain ⟨k0, v0⟩ := kv
    by_cases h0 : k0 = k
    · simp [upsert, h0]
    · simp only [alookup, if_neg h0] at h
      simp [upsert, h0, ih h]

theorem upsert_length_of_not_mem {α : Type} (k : ℕ) (v : α) (d : List (ℕ × α))
    (h : alookup k d = none) : (upsert k v d).length = d.length + 1 := by
  induction d with
  | nil => simp [upsert]
  | cons kv tl ih =>
    obtain ⟨k0, v0⟩ := kv
    by_cases h0 : k0 = k
    · simp [alookup, h0] at h
    · simp only [alookup, if_neg h0] at h
      simp [upsert, h0, ih h]

theorem upsert_keys_nodup {α : Type} (k : ℕ) (v : α) (d : List (ℕ × α))
    (h : (d.map Prod.fst).Nodup) : ((upsert k v d).map Prod.fst).Nodup := by
  induction d with
  | nil => simp [upsert]
  | cons kv tl ih =>
    obtain ⟨k0, v0⟩ := kv
    simp only [List.map_cons, List.nodup_cons] at h
    by_cases h0 : k0 = k
    · subst h0
      simpa [upsert] using h
    · simp only [upsert, if_neg h0, List.map_cons, List.nodup_cons]
      refine ⟨?_, ih h.2⟩
      intro hmem
      apply h.1
      have h1 : (alookup k0 (upsert k v tl)).isSome :=
        (alookup_isSome_iff_mem_keys _ _).mpr hmem
      rw [alookup_upsert, if_neg h0] at h1
      exact (alookup_isSome_iff_mem_keys _ _).mp h1

theorem popMin_eq_none_iff (l : List (ℝ × ℕ)) : popMin l = none ↔ l = [] := by
  cases l with
  | nil => simp [popMin]
  | cons x xs =>
    simp only [popMin]
    constructor
    · intro h
      cases hx : popMin xs with
      | none => rw [hx] at h; simp at h
      | some m => rw [hx] at h; obtain ⟨m1, m2⟩ := m; by_cases he : entryLe x m1 <;>
          simp [he] at h
    · intro h
      exact absurd h (List.cons_ne_nil x xs)

theorem popMin_spec (l : List (ℝ × ℕ)) (x : ℝ × ℕ) (r : List (ℝ × ℕ))
    (h : popMin l = some (x, r)) :
    x ∈ l ∧ l.Perm (x :: r) ∧ ∀ y ∈ l, x.1 ≤ y.1 := by
  induction l generalizing x r with
  | nil => simp [popMin] at h
  | cons a xs ih =>
    simp only [popMin] at h
    cases hx : popMin xs with
    | none =>
      rw [hx] at h
      have hxs : xs = [] := (popMin_eq_none_iff xs).mp hx
      subst hxs
      simp only [Option.some_inj, Prod.mk.injEq] at h
      obtain ⟨rfl, rfl⟩ := h
      refine ⟨List.mem_singleton_self _, List.Perm.refl _, ?_⟩
      intro y hy
      rw [List.mem_singleton] at hy
      subst hy
      exact le_refl _
    | some m =>
      obtain ⟨m1, r1⟩ := m
      rw [hx] at h
      dsimp only at h
      obtain ⟨hm1, hperm1, hmin1⟩ := ih m1 r1 hx
      by_cases he : entryLe a m1
      · rw [if_pos he] at h
        simp only [Option.some_inj, Prod.mk.injEq] at h
        obtain ⟨rfl, rfl⟩ := h
        refine ⟨List.mem_cons_self _ _, List.Perm.refl _, ?_⟩
        intro y hy
        rcases List.mem_cons.mp hy with rfl | hy2
        · exact le_refl _
        · have hy3 := hmin1 y hy2
          rcases he with hlt | ⟨heq, -⟩
          · linarith
          · linarith [heq.le]
      · rw [if_neg he] at h
        simp only [Option.some_inj, Prod.mk.injEq] at h
        obtain ⟨rfl, rfl⟩ := h
        refine ⟨List.mem_cons_of_mem a hm1,
          (hperm1.cons a).trans (List.Perm.swap m1 a r1), ?_⟩
        intro y hy
        rcases List.mem_cons.mp hy with rfl | hy2
        · unfold entryLe at he
          push_neg at he
          exact he.1
        · exact hmin1 y hy2

/-! ## Neighbor query and walk lemmas -/

theorem get_neighbors_sound (g : Graph) (v : ℕ) (p : ℕ × GEdge)
    (h : p ∈ get_neighbors g v) : p.2 ∈ get_edges g ∧ connects p.2 v p.1 := by
  unfold get_neighbors at h
  rw [List.mem_filterMap] at h
  obtain ⟨e, he, hcond⟩ := h
  by_cases h1 : e.first = v
  · rw [if_pos h1] at hcond
    obtain rfl := Option.some_injective _ hcond
    exact ⟨he, Or.inl ⟨h1, rfl⟩⟩
  · rw [if_neg h1] at hcond
    by_cases h2 : e.second = v
    · rw [if_pos h2] at hcond
      obtain rfl := Option.some_injective _ hcond
      exact ⟨he, Or.inr ⟨rfl, h2⟩⟩
    · rw [if_neg h2] at hcond
      simp at hcond

theorem mem_get_neighbors_of_connects (g : Graph) (v m : ℕ) (e : GEdge)
    (he : e ∈ get_edges g) (hc : connects e v m) : (m, e) ∈ get_neighbors g v := by
  unfold get_neighbors
  rw [List.mem_filterMap]
  refine ⟨e, he, ?_⟩
  rcases hc with ⟨h1, h2⟩ | ⟨h1, h2⟩
  · rw [if_pos h1, h2]
  · by_cases hf : e.first = v
    · rw [if_pos hf]
      rw [h2.trans (hf.symm.trans h1)]
    · rw [if_neg hf, if_pos h2, h1]

theorem get_heuristic_nonneg (g : Graph) (t n : ℕ) : 0 ≤ get_heuristic g t n :=
  Real.sqrt_nonneg _

theorem get_heuristic_self (g : Graph) (t : ℕ) : get_heuristic g t t = 0 :=
  dist_self_pair _

theorem edge_cost_ge_one (g : Graph) (e : GEdge)
    (hhug : e.surfing = false → hugOnCircle g e) : 1 ≤ get_edge_cost g e := by
  simp only [get_edge_cost]
  cases hsurf : e.surfing with
  | true =>
    rw [if_pos rfl]
    have := dist_nonneg_pair (nodeData g e.first).position (nodeData g e.second).position
    linarith
  | false =>
    obtain ⟨h1, -⟩ := hhug hsurf
    rw [if_neg Bool.false_ne_true]
    have hr : 0 ≤ (circleData g (nodeData g e.first).circle).r := by
      rw [← h1]
      exact dist_nonneg_pair _ _
    exact le_add_of_nonneg_right (mul_nonneg hr (Real.arccos_nonneg _))

theorem walkWeight_nil (g : Graph) : walkWeight g [] = 0 := by
  simp [walkWeight]

theorem walkWeight_cons (g : Graph) (x : GEdge × ℕ) (ws : List (GEdge × ℕ)) :
    walkWeight g (x :: ws) = get_edge_cost g x.1 + walkWeight g ws := by
  simp [walkWeight]

theorem walkWeight_append (g : Graph) (ws1 ws2 : List (GEdge × ℕ)) :
    walkWeight g (ws1 ++ ws2) = walkWeight g ws1 + walkWeight g ws2 := by
  simp [walkWeight]

theorem walkWeight_nonneg (g : Graph)
    (Hw : ∀ e ∈ get_edges g, 1 ≤ get_edge_cost g e) :
    ∀ (ws : List (GEdge × ℕ)) (a b : ℕ), stepsFrom g a ws b → 0 ≤ walkWeight g ws := by
  intro ws
  induction ws with
  | nil =>
    intro a b _
    rw [walkWeight_nil]
  | cons x rest ih =>
    intro a b h
    obtain ⟨hmem, -, hrest⟩ := h
    have h1 := Hw x.1 hmem
    have h2 := ih x.2 b hrest
    rw [walkWeight_cons]
    linarith

theorem steps_snoc (g : Graph) (e : GEdge) (m : ℕ) :
    ∀ (ws : List (GEdge × ℕ)) (a b : ℕ), stepsFrom g a ws b →
      e ∈ get_edges g → connects e b m → stepsFrom g a (ws ++ [(e, m)]) m := by
  intro ws
  induction ws with
  | nil =>
    intro a b h he hc
    have hab : a = b := h
    subst hab
    exact ⟨he, hc, rfl⟩
  | cons x rest ih =>
    intro a b h he hc
    obtain ⟨hmem, hcon, hrest⟩ := h
    exact ⟨hmem, hcon, ih x.2 b hrest he hc⟩

theorem walkNodes_snoc (s : ℕ) (ws : List (GEdge × ℕ)) (e : GEdge) (m : ℕ) :
    walkNodes s (ws ++ [(e, m)]) = walkNodes s ws ++ [m] := by
  simp [walkNodes]

theorem alookup_mem {α : Type} (k : ℕ) (v : α) :
    ∀ d : List (ℕ × α), alookup k d = some v → (k, v) ∈ d := by
  intro d
  induction d with
  | nil => intro h; simp [alookup] at h
  | cons kv tl ih =>
    intro h
    by_cases h0 : kv.1 = k
    · unfold alookup at h
      rw [if_pos h0] at h
      obtain rfl := Option.some_injective _ h
      obtain ⟨a, b⟩ := kv
      obtain rfl : a = k := h0
      exact List.mem_cons_self _ _
    · unfold alookup at h
      rw [if_neg h0] at h
      exact List.mem_cons_of_mem _ (ih h)

/-! ## The A* search invariant -/

/-- All node ids the search can ever assign a cost: the start node plus every
endpoint of an edge of the graph. -/
def nodeUniverse (g : Graph) (s : ℕ) : List ℕ :=
  s :: (get_edges g).flatMap (fun e => [e.first, e.second])

/-- The largest edge cost of the graph (`0` when there are no edges). -/
def weightBound (g : Graph) : ℝ :=
  (get_edges g).foldr (fun e m => max (get_edge_cost g e) m) 0

/-- The cost of the `i`-th edge of the graph. -/
def edgeCostIdx (g : Graph) (i : Fin (get_edges g).length) : ℝ :=
  get_edge_cost g ((get_edges g).get i)

theorem foldr_max_nonneg (g : Graph) (l : List GEdge) :
    0 ≤ l.foldr (fun e m => max (get_edge_cost g e) m) 0 := by
  induction l with
  | nil => exact le_refl 0
  | cons a tl ih => exact le_max_of_le_right ih

theorem weightBound_nonneg (g : Graph) : 0 ≤ weightBound g :=
  foldr_max_nonneg g (get_edges g)

theorem le_foldr_max (g : Graph) (e : GEdge) :
    ∀ l : List GEdge, e ∈ l →
      get_edge_cost g e ≤ l.foldr (fun x m => max (get_edge_cost g x) m) 0 := by
  intro l
  induction l with
  | nil => intro h; simp at h
  | cons a tl ih =>
    intro h
    rcases List.mem_cons.mp h with rfl | h2
    · exact le_max_left _ _
    · exact le_trans (ih h2) (le_max_right _ _)

theorem le_weightBound (g : Graph) (e : GEdge) (he : e ∈ get_edges g) :
    get_edge_cost g e ≤ weightBound g :=
  le_foldr_max g e (get_edges g) he

/-- Node `v`, currently costed `c`, is either waiting in the frontier (with a
priority at most `c` plus its heuristic) or fully relaxed (each neighbor's cost
is at most `c` plus the joining edge's cost). -/
def RelaxedAt (g : Graph) (t : ℕ) (st : SState) (v : ℕ) (c : ℝ) : Prop :=
  (∃ pr ∈ st.frontier, pr.2 = v ∧ pr.1 ≤ c + get_heuristic g t v) ∨
  (∀ p ∈ get_neighbors g v, ∃ cm, alookup p.1 st.cost = some cm ∧
    cm ≤ c + get_edge_cost g p.2)

/-- The part of the A* loop invariant that survives popping a node whose
neighbors have not yet been relaxed: bookkeeping facts about the cost map, the
predecessor map and the frontier. -/
structure CoreInv (g : Graph) (s t : ℕ) (st : SState) : Prop where
  start_cost : alookup s st.cost = some 0
  start_pred : alookup s st.explored = some none
  nonneg : ∀ v c, alookup v st.cost = some c → 0 ≤ c
  dom_iff : ∀ v, (alookup v st.cost).isSome ↔ (alookup v st.explored).isSome
  len_eq : st.explored.length = st.cost.length
  nodup_cost : (st.cost.map Prod.fst).Nodup
  dom_sub : ∀ v, (alookup v st.cost).isSome → v ∈ nodeUniverse g s
  bounded : ∀ v c, alookup v st.cost = some c →
      c ≤ (st.cost.length : ℝ) * weightBound g
  val_real : ∀ v c, alookup v st.cost = some c →
      ∃ f : Fin (get_edges g).length → ℕ,
        (∑ i, (f i : ℝ)) ≤ c ∧ c = ∑ i, (f i : ℝ) * edgeCostIdx g i
  frontier_inv : ∀ pr ∈ st.frontier, ∃ c, alookup pr.2 st.cost = some c ∧
      (c + get_heuristic g t pr.2 ≤ pr.1 ∨ (pr.2 = s ∧ pr.1 = 0))
  pred_edge : ∀ v u, alookup v st.explored = some (some u) →
      ∃ e ∈ get_edges g, connects e u v ∧
        ∃ cu cv, alookup u st.cost = some cu ∧ alookup v st.cost = some cv ∧
          cu + get_edge_cost g e ≤ cv
  pred_none : ∀ v, alookup v st.explored = some none → v = s

/-- Every costed node is relaxed or in the frontier. -/
def RelaxedAll (g : Graph) (t : ℕ) (st : SState) : Prop :=
  ∀ v c, alookup v st.cost = some c → RelaxedAt g t st v c

/-- The full loop invariant. -/
def AInv (g : Graph) (s t : ℕ) (st : SState) : Prop :=
  CoreInv g s t st ∧ RelaxedAll g t st

/-- The invariant holding during the neighbor loop of a popped node `cur`:
`cur` itself may be temporarily unrelaxed. -/
def MidInv (g : Graph) (s t cur : ℕ) (st : SState) : Prop :=
  CoreInv g s t st ∧
  ∀ v c, v ≠ cur → alookup v st.cost = some c → RelaxedAt g t st v c

/-- The goal's recorded cost is a lower bound on the weight of every walk from
the start to the goal. -/
def GoalBound (g : Graph) (s t : ℕ) (st : SState) : Prop :=
  ∃ c, alookup t st.cost = some c ∧
    ∀ ws, stepsFrom g s ws t → c ≤ walkWeight g ws

theorem alookup_single {α : Type} (k v0 : ℕ) (x : α) :
    alookup v0 [(k, x)] = if k = v0 then some x else none := by
  unfold alookup
  by_cases h : k = v0
  · rw [if_pos h, if_pos h]
  · rw [if_neg h, if_neg h]
    rfl

/-- The initial state of `calculate_path` satisfies the loop invariant. -/
theorem initState_inv (g : Graph) (s t : ℕ) : AInv g s t (initState s) := by
  have hcost : ∀ v c, alookup v (initState s).cost = some c → v = s ∧ c = 0 := by
    intro v c h
    rw [show (initState s).cost = [(s, (0 : ℝ))] from rfl, alookup_single] at h
    by_cases hv : s = v
    · rw [if_pos hv] at h
      exact ⟨hv.symm, (Option.some_injective _ h).symm⟩
    · rw [if_neg hv] at h
      exact absurd h (Option.noConfusion)
  have hexp : ∀ v p, alookup v (initState s).explored = some p → v = s ∧ p = none := by
    intro v p h
    rw [show (initState s).explored = [(s, (none : Option ℕ))] from rfl,
      alookup_single] at h
    by_cases hv : s = v
    · rw [if_pos hv] at h
      exact ⟨hv.symm, (Option.some_injective _ h).symm⟩
    · rw [if_neg hv] at h
      exact absurd h (Option.noConfusion)
  have hlooks : alookup s (initState s).cost = some 0 := by
    rw [show (initState s).cost = [(s, (0 : ℝ))] from rfl, alookup_single, if_pos rfl]
  have hlooke : alookup s (initState s).explored = some none := by
    rw [show (initState s).explored = [(s, (none : Option ℕ))] from rfl,
      alookup_single, if_pos rfl]
  constructor
  · constructor
    · exact hlooks
    · exact hlooke
    · intro v c h
      rw [(hcost v c h).2]
    · intro v
      constructor
      · intro h
        obtain ⟨c, hc⟩ := Option.isSome_iff_exists.mp h
        rw [(hcost v c hc).1, hlooke]
        rfl
      · intro h
        obtain ⟨p, hp⟩ := Option.isSome_iff_exists.mp h
        rw [(hexp v p hp).1, hlooks]
        rfl
    · rfl
    · simp [initState]
    · intro v h
      obtain ⟨c, hc⟩ := Option.isSome_iff_exists.mp h
      rw [(hcost v c hc).1]
      exact List.mem_cons_self _ _
    · intro v c h
      rw [(hcost v c h).2, show (initState s).cost.length = 1 from rfl]
      have := weightBound_nonneg g
      push_cast
      linarith
    · intro v c h
      refine ⟨fun _ => 0, ?_, ?_⟩
      · rw [(hcost v c h).2]
        simp
      · rw [(hcost v c h).2]
        simp
    · intro pr hpr
      have hpr1 : pr = ((0 : ℝ), s) := by
        rcases List.mem_singleton.mp hpr with h
        exact h
      refine ⟨0, ?_, Or.inr ?_⟩
      · rw [hpr1]
        exact hlooks
      · rw [hpr1]
        exact ⟨rfl, rfl⟩
    · intro v u h
      exact absurd (hexp v u h).2 (Option.noConfusion)
    · intro v h
      exact (hexp v none h).1
  · intro v c h
    left
    refine ⟨((0 : ℝ), s), List.mem_singleton.mpr rfl, (hcost v c h).1.symm, ?_⟩
    rw [(hcost v c h).2]
    have := get_heuristic_nonneg g t v
    show (0 : ℝ) ≤ 0 + get_heuristic g t v
    linarith

/-- The effect of one `relaxNeighbor` call on a sound neighbor of `cur`: it
succeeds, preserves the mid-expansion invariant and the cost of `cur`, relaxes
the processed neighbor, never increases any recorded cost, and keeps every
frontier entry. -/
theorem relaxNeighbor_step (g : Graph) (s t cur : ℕ)
    (Hw : ∀ e ∈ get_edges g, 1 ≤ get_edge_cost g e)
    (st : SState) (m : ℕ) (e : GEdge)
    (he : e ∈ get_edges g) (hc : connects e cur m)
    (c0 : ℝ) (hc0 : alookup cur st.cost = some c0)
    (hinv : MidInv g s t cur st) :
    ∃ st2, relaxNeighbor g t cur st (m, e) = some st2 ∧
      MidInv g s t cur st2 ∧
      alookup cur st2.cost = some c0 ∧
      (∃ cm, alookup m st2.cost = some cm ∧ cm ≤ c0 + get_edge_cost g e) ∧
      (∀ v c, alookup v st.cost = some c →
        ∃ c2, alookup v st2.cost = some c2 ∧ c2 ≤ c) ∧
      (∀ pr ∈ st.frontier, pr ∈ st2.frontier) ∧
      (∀ v, v ≠ m → alookup v st2.cost = alookup v st.cost) ∧
      (st2 = st ∨
        (st2.frontier.length = st.frontier.length + 1 ∧
          alookup m st2.cost = some (c0 + get_edge_cost g e) ∧
          ((alookup m st.cost = none ∧ st2.cost.length = st.cost.length + 1) ∨
           (∃ old, alookup m st.cost = some old ∧
             c0 + get_edge_cost g e < old ∧
             st2.cost.length = st.cost.length)))) := by
  obtain ⟨core, hrel⟩ := hinv
  have w1 : 1 ≤ get_edge_cost g e := Hw e he
  have hc0nn : 0 ≤ c0 := core.nonneg cur c0 hc0
  have hn1 : 1 ≤ c0 + get_edge_cost g e := by linarith
  have hrn0 : relaxNeighbor g t cur st (m, e) =
      (if (alookup m st.cost).elim True
          (fun old => c0 + get_edge_cost g e < old) then
        some ⟨st.frontier ++
                [(c0 + get_edge_cost g e + get_heuristic g t m, m)],
              upsert m (some cur) st.explored,
              upsert m (c0 + get_edge_cost g e) st.cost⟩
      else some st) := by
    unfold relaxNeighbor
    rw [hc0]
  by_cases hcond : (alookup m st.cost).elim True
      (fun old => c0 + get_edge_cost g e < old)
  · -- the neighbor is discovered or improved: a push happens
    have hms : m ≠ s := by
      intro hmeq
      rw [hmeq, core.start_cost] at hcond
      simp only [Option.elim] at hcond
      linarith
    have hmcur : m ≠ cur := by
      intro hmeq
      rw [hmeq, hc0] at hcond
      simp only [Option.elim] at hcond
      linarith
    have hold : ∀ old, alookup m st.cost = some old →
        c0 + get_edge_cost g e < old := by
      intro old h
      rw [h] at hcond
      simpa only [Option.elim] using hcond
    have hlookC : ∀ v, alookup v (upsert m (c0 + get_edge_cost g e) st.cost) =
        if v = m then some (c0 + get_edge_cost g e) else alookup v st.cost :=
      fun v => alookup_upsert m v _ st.cost
    have hlookX : ∀ v, alookup v (upsert m (some cur) st.explored) =
        if v = m then some (some cur) else alookup v st.explored :=
      fun v => alookup_upsert m v _ st.explored
    have hdecr : ∀ v c, alookup v st.cost = some c →
        ∃ c2, alookup v (upsert m (c0 + get_edge_cost g e) st.cost) = some c2 ∧
          c2 ≤ c := by
      intro v c h
      by_cases hv : v = m
      · refine ⟨c0 + get_edge_cost g e, by rw [hlookC, if_pos hv], ?_⟩
        subst hv
        exact (hold c h).le
      · exact ⟨c, by rw [hlookC, if_neg hv]; exact h, le_refl c⟩
    have hlenC : (alookup m st.cost = none ∧
          (upsert m (c0 + get_edge_cost g e) st.cost).length =
            st.cost.length + 1 ∧
          (upsert m (some cur) st.explored).length = st.explored.length + 1) ∨
        ((alookup m st.cost).isSome ∧
          (upsert m (c0 + get_edge_cost g e) st.cost).length = st.cost.length ∧
          (upsert m (some cur) st.explored).length = st.explored.length) := by
      cases hm : alookup m st.cost with
      | none =>
        left
        have hx : alookup m st.explored = none := by
          cases hx2 : alookup m st.explored with
          | none => rfl
          | some p =>
            have h1 : (alookup m st.cost).isSome :=
              (core.dom_iff m).mpr (by rw [hx2]; rfl)
            rw [hm] at h1
            exact absurd h1 (by simp)
        exact ⟨rfl, upsert_length_of_not_mem _ _ _ hm,
          upsert_length_of_not_mem _ _ _ hx⟩
      | some c =>
        right
        have h1 : (alookup m st.cost).isSome := by rw [hm]; rfl
        exact ⟨rfl, upsert_length_of_mem _ _ _ h1,
          upsert_length_of_mem _ _ _ ((core.dom_iff m).mp h1)⟩
    refine ⟨⟨st.frontier ++
              [(c0 + get_edge_cost g e + get_heuristic g t m, m)],
            upsert m (some cur) st.explored,
            upsert m (c0 + get_edge_cost g e) st.cost⟩,
      by rw [hrn0, if_pos hcond], ⟨⟨?_, ?_, ?_, ?_, ?_, ?_, ?_, ?_, ?_, ?_,
        ?_, ?_⟩, ?_⟩, ?_, ?_, ?_, ?_, ?_, ?_⟩
    · -- start_cost
      show alookup s (upsert m (c0 + get_edge_cost g e) st.cost) = some 0
      rw [hlookC, if_neg (fun hh => hms hh.symm)]
      exact core.start_cost
    · -- start_pred
      show alookup s (upsert m (some cur) st.explored) = some none
      rw [hlookX, if_neg (fun hh => hms hh.symm)]
      exact core.start_pred
    · -- nonneg
      intro v c h
      rw [show (⟨st.frontier ++
            [(c0 + get_edge_cost g e + get_heuristic g t m, m)],
          upsert m (some cur) st.explored,
          upsert m (c0 + get_edge_cost g e) st.cost⟩ : SState).cost =
          upsert m (c0 + get_edge_cost g e) st.cost from rfl, hlookC] at h
      by_cases hv : v = m
      · rw [if_pos hv] at h
        have hceq : c0 + get_edge_cost g e = c := Option.some_injective _ h
        linarith
      · rw [if_neg hv] at h
        exact core.nonneg v c h
    · -- dom_iff
      intro v
      show (alookup v (upsert m (c0 + get_edge_cost g e) st.cost)).isSome ↔
        (alookup v (upsert m (some cur) st.explored)).isSome
      rw [hlookC, hlookX]
      by_cases hv : v = m
      · rw [if_pos hv, if_pos hv]
        exact Iff.rfl
      · rw [if_neg hv, if_neg hv]
        exact core.dom_iff v
    · -- len_eq
      show (upsert m (some cur) st.explored).length =
        (upsert m (c0 + get_edge_cost g e) st.cost).length
      rcases hlenC with ⟨-, hl1, hl2⟩ | ⟨-, hl1, hl2⟩ <;>
        rw [hl1, hl2, core.len_eq]
    · -- nodup_cost
      exact upsert_keys_nodup _ _ _ core.nodup_cost
    · -- dom_sub
      intro v h
      by_cases hv : v = m
      · subst hv
        unfold nodeUniverse
        refine List.mem_cons_of_mem _ (List.mem_flatMap.mpr ⟨e, he, ?_⟩)
        rcases hc with ⟨h1, h2⟩ | ⟨h1, h2⟩
        · rw [← h2]
          exact List.mem_cons_of_mem _ (List.mem_cons_self _ _)
        · rw [← h1]
          exact List.mem_cons_self _ _
      · refine core.dom_sub v ?_
        rw [show (⟨st.frontier ++
              [(c0 + get_edge_cost g e + get_heuristic g t m, m)],
            upsert m (some cur) st.explored,
            upsert m (c0 + get_edge_cost g e) st.cost⟩ : SState).cost =
            upsert m (c0 + get_edge_cost g e) st.cost from rfl,
          hlookC, if_neg hv] at h
        exact h
    · -- bounded
      intro v c h
      rw [show (⟨st.frontier ++
            [(c0 + get_edge_cost g e + get_heuristic g t m, m)],
          upsert m (some cur) st.explored,
          upsert m (c0 + get_edge_cost g e) st.cost⟩ : SState).cost =
          upsert m (c0 + get_edge_cost g e) st.cost from rfl] at h ⊢
      rw [hlookC] at h
      have hwb := weightBound_nonneg g
      have hwwb := le_weightBound g e he
      rcases hlenC with ⟨hm0, hl1, -⟩ | ⟨hm1, hl1, -⟩
      · rw [hl1]
        by_cases hv : v = m
        · rw [if_pos hv] at h
          have hceq : c0 + get_edge_cost g e = c := Option.some_injective _ h
          have hb := core.bounded cur c0 hc0
          push_cast
          nlinarith
        · rw [if_neg hv] at h
          have hb := core.bounded v c h
          push_cast
          nlinarith
      · rw [hl1]
        by_cases hv : v = m
        · rw [if_pos hv] at h
          have hceq : c0 + get_edge_cost g e = c := Option.some_injective _ h
          obtain ⟨old, hm⟩ := Option.isSome_iff_exists.mp hm1
          have hb := core.bounded m old hm
          have hlt := hold old hm
          linarith
        · rw [if_neg hv] at h
          exact core.bounded v c h
    · -- val_real
      intro v c h
      rw [show (⟨st.frontier ++
            [(c0 + get_edge_cost g e + get_heuristic g t m, m)],
          upsert m (some cur) st.explored,
          upsert m (c0 + get_edge_cost g e) st.cost⟩ : SState).cost =
          upsert m (c0 + get_edge_cost g e) st.cost from rfl, hlookC] at h
      by_cases hv : v = m
      · rw [if_pos hv] at h
        have hceq : c0 + get_edge_cost g e = c := Option.some_injective _ h
        obtain ⟨f, hf1, hf2⟩ := core.val_real cur c0 hc0
        obtain ⟨idx, hidx⟩ := List.mem_iff_get.mp he
        refine ⟨Function.update f idx (f idx + 1), ?_, ?_⟩
        · have heq : (fun i => ((Function.update f idx (f idx + 1) i : ℕ) : ℝ)) =
              Function.update (fun i => ((f i : ℕ) : ℝ)) idx ((f idx : ℝ) + 1) := by
            funext j
            by_cases hj : j = idx
            · subst hj
              simp [Function.update_same]
            · simp [Function.update_noteq hj]
          calc (∑ i, ((Function.update f idx (f idx + 1) i : ℕ) : ℝ))
              = ∑ i, Function.update (fun i => ((f i : ℕ) : ℝ)) idx
                  ((f idx : ℝ) + 1) i := by rw [heq]
            _ = (∑ i, ((f i : ℕ) : ℝ)) + 1 := by
                rw [Finset.sum_update_of_mem (Finset.mem_univ idx),
                  Finset.sum_eq_add_sum_diff_singleton (Finset.mem_univ idx)
                    (fun i => ((f i : ℕ) : ℝ))]
                ring
            _ ≤ c := by rw [← hceq]; linarith
        · have heq : (fun i => ((Function.update f idx (f idx + 1) i : ℕ) : ℝ) *
              edgeCostIdx g i) =
              Function.update (fun i => ((f i : ℕ) : ℝ) * edgeCostIdx g i) idx
                (((f idx : ℝ) + 1) * edgeCostIdx g idx) := by
            funext j
            by_cases hj : j = idx
            · subst hj
              simp [Function.update_same]
            · simp [Function.update_noteq hj]
          have hewidx : edgeCostIdx g idx = get_edge_cost g e := by
            unfold edgeCostIdx
            rw [hidx]
          calc c = c0 + get_edge_cost g e := hceq.symm
            _ = (∑ i, ((f i : ℕ) : ℝ) * edgeCostIdx g i) +
                edgeCostIdx g idx := by rw [hf2, hewidx]
            _ = ∑ i, Function.update (fun i => ((f i : ℕ) : ℝ) * edgeCostIdx g i)
                  idx (((f idx : ℝ) + 1) * edgeCostIdx g idx) i := by
                rw [Finset.sum_update_of_mem (Finset.mem_univ idx),
                  Finset.sum_eq_add_sum_diff_singleton (Finset.mem_univ idx)
                    (fun i => ((f i : ℕ) : ℝ) * edgeCostIdx g i)]
                ring
            _ = ∑ i, ((Function.update f idx (f idx + 1) i : ℕ) : ℝ) *
                  edgeCostIdx g i := by rw [heq]
      · rw [if_neg hv] at h
        exact core.val_real v c h
    · -- frontier_inv
      intro pr hpr
      show ∃ c, alookup pr.2 (upsert m (c0 + get_edge_cost g e) st.cost) =
          some c ∧ (c + get_heuristic g t pr.2 ≤ pr.1 ∨ (pr.2 = s ∧ pr.1 = 0))
      rcases List.mem_append.mp hpr with hprold | hprnew
      · obtain ⟨cpr, hcpr, hdisj⟩ := core.frontier_inv pr hprold
        by_cases hv : pr.2 = m
        · have hm : alookup m st.cost = some cpr := by rw [← hv]; exact hcpr
          have hlt := hold cpr hm
          refine ⟨c0 + get_edge_cost g e, by rw [hlookC, if_pos hv], Or.inl ?_⟩
          rcases hdisj with hle | ⟨hps, -⟩
          · linarith
          · rw [hv] at hps
            exact absurd hps hms
        · exact ⟨cpr, by rw [hlookC, if_neg hv]; exact hcpr, hdisj⟩
      · have hpr1 : pr = (c0 + get_edge_cost g e + get_heuristic g t m, m) :=
          List.mem_singleton.mp hprnew
        subst hpr1
        dsimp only
        refine ⟨c0 + get_edge_cost g e, by rw [hlookC, if_pos rfl],
          Or.inl (le_refl _)⟩
    · -- pred_edge
      intro v u h
      rw [show (⟨st.frontier ++
            [(c0 + get_edge_cost g e + get_heuristic g t m, m)],
          upsert m (some cur) st.explored,
          upsert m (c0 + get_edge_cost g e) st.cost⟩ : SState).explored =
          upsert m (some cur) st.explored from rfl, hlookX] at h
      by_cases hv : v = m
      · rw [if_pos hv] at h
        have hu : cur = u :=
          Option.some_injective _ (Option.some_injective _ h)
        subst hu
        refine ⟨e, he, by rw [hv]; exact hc, c0, c0 + get_edge_cost g e,
          by rw [hlookC, if_neg (fun hh => hmcur hh.symm)]; exact hc0,
          by rw [hlookC, if_pos hv], le_refl _⟩
      · rw [if_neg hv] at h
        obtain ⟨e2, he2, hc2, cu, cv, hcu, hcv, hle⟩ := core.pred_edge v u h
        obtain ⟨cu2, hcu2, hcu2le⟩ := hdecr u cu hcu
        refine ⟨e2, he2, hc2, cu2, cv, hcu2,
          by rw [hlookC, if_neg hv]; exact hcv, by linarith⟩
    · -- pred_none
      intro v h
      rw [show (⟨st.frontier ++
            [(c0 + get_edge_cost g e + get_heuristic g t m, m)],
          upsert m (some cur) st.explored,
          upsert m (c0 + get_edge_cost g e) st.cost⟩ : SState).explored =
          upsert m (some cur) st.explored from rfl, hlookX] at h
      by_cases hv : v = m
      · rw [if_pos hv] at h
        exact absurd (Option.some_injective _ h) (Option.some_ne_none cur)
      · rw [if_neg hv] at h
        exact core.pred_none v h
    · -- relaxedOther
      intro v c hvcur h
      rw [show (⟨st.frontier ++
            [(c0 + get_edge_cost g e + get_heuristic g t m, m)],
          upsert m (some cur) st.explored,
          upsert m (c0 + get_edge_cost g e) st.cost⟩ : SState).cost =
          upsert m (c0 + get_edge_cost g e) st.cost from rfl, hlookC] at h
      by_cases hv : v = m
      · subst hv
        rw [if_pos rfl] at h
        have hceq : c0 + get_edge_cost g e = c := Option.some_injective _ h
        left
        refine ⟨(c0 + get_edge_cost g e + get_heuristic g t v, v),
          List.mem_append_right _ (List.mem_singleton.mpr rfl), rfl, ?_⟩
        rw [← hceq]
      · rw [if_neg hv] at h
        rcases hrel v c hvcur h with ⟨pr, hpr, hpr2, hprle⟩ | hnb
        · exact Or.inl ⟨pr, List.mem_append_left _ hpr, hpr2, hprle⟩
        · right
          intro p hp
          obtain ⟨cm, hcm, hcmle⟩ := hnb p hp
          obtain ⟨cm2, hcm2, hcm2le⟩ := hdecr p.1 cm hcm
          exact ⟨cm2, hcm2, by linarith⟩
    · -- cost of cur is preserved
      show alookup cur (upsert m (c0 + get_edge_cost g e) st.cost) = some c0
      rw [hlookC, if_neg (fun hh => hmcur hh.symm)]
      exact hc0
    · -- the processed neighbor is relaxed
      refine ⟨c0 + get_edge_cost g e, ?_, le_refl _⟩
      show alookup m (upsert m (c0 + get_edge_cost g e) st.cost) =
        some (c0 + get_edge_cost g e)
      rw [hlookC, if_pos rfl]
    · -- costs never increase
      exact hdecr
    · -- frontier entries persist
      intro pr hpr
      exact List.mem_append_left _ hpr
    · -- other lookups unchanged
      intro v hv
      show alookup v (upsert m (c0 + get_edge_cost g e) st.cost) =
        alookup v st.cost
      rw [hlookC, if_neg hv]
    · -- structural description
      right
      refine ⟨by simp, by
        show alookup m (upsert m (c0 + get_edge_cost g e) st.cost) =
          some (c0 + get_edge_cost g e)
        rw [hlookC, if_pos rfl], ?_⟩
      rcases hlenC with ⟨hm0, hl1, -⟩ | ⟨hm1, hl1, -⟩
      · exact Or.inl ⟨hm0, hl1⟩
      · obtain ⟨old, hm⟩ := Option.isSome_iff_exists.mp hm1
        exact Or.inr ⟨old, hm, hold old hm, hl1⟩
  · -- no improvement: the state is unchanged
    have hold2 : ∃ old, alookup m st.cost = some old ∧
        old ≤ c0 + get_edge_cost g e := by
      cases hm : alookup m st.cost with
      | none =>
        rw [hm] at hcond
        simp at hcond
      | some old =>
        rw [hm] at hcond
        simp only [Option.elim] at hcond
        exact ⟨old, rfl, not_lt.mp hcond⟩
    obtain ⟨old, hm, hmle⟩ := hold2
    refine ⟨st, by rw [hrn0, if_neg hcond], ⟨core, hrel⟩, hc0,
      ⟨old, hm, hmle⟩, ?_, ?_, ?_, Or.inl rfl⟩
    · intro v c h
      exact ⟨c, h, le_refl c⟩
    · intro pr hpr
      exact hpr
    · intro v _
      rfl

/-! ## Claim C5: behaviour when the goal is unreachable -/

/-- Two point discs with their nodes and no edges at all: the goal node 1 is
unreachable from the start node 0. -/
def C5graph : Graph :=
  ⟨[⟨0, (0, 0)⟩, ⟨0, (10, 0)⟩], [⟨0, (0, 0)⟩, ⟨1, (10, 0)⟩], [], []⟩

/-- C5: on an unreachable-goal graph the search does exhaust its open set, but
`calculate_path` then *crashes* instead of reporting "no path": it prints
"Path found" unconditionally and the reconstruction loop raises a `KeyError`
looking up the undiscovered goal in `explored` (modelled as `none`), for any
sufficient fuel. -/
theorem C5_keyerror_on_unreachable (fuel : ℕ) :
    calculate_path C5graph 0 1 (fuel + 2) = none := by
  have h1 : astarLoop C5graph 1 (fuel + 1 + 1) (initState 0) =
      some ⟨[], [(0, none)], [(0, 0)]⟩ := by
    simp [astarLoop, initState, popMin, expandNode, get_neighbors, get_edges, C5graph]
  show calculate_path C5graph 0 1 (fuel + 1 + 1) = none
  unfold calculate_path
  rw [h1]
  simp [reconstructPath, reconstructGo, alookup]

/-- The heuristic never exceeds the total cost of any walk to the goal:
each edge cost dominates its chord, and chords telescope by the triangle
inequality. -/
theorem heuristic_le_walk (g : Graph) (goal : ℕ)
    (hhug : ∀ e ∈ get_edges g, e.surfing = false → hugOnCircle g e) :
    ∀ ws n, stepsFrom g n ws goal → get_heuristic g goal n ≤ walkWeight g ws := by
  intro ws
  induction ws with
  | nil =>
    intro n h
    have hng : n = goal := h
    subst hng
    unfold get_heuristic walkWeight
    simp [dist_self_pair]
  | cons s rest ih =>
    intro n h
    obtain ⟨hmem, hconn, hrest⟩ := h
    have hchord := edge_cost_ge_chord g s.1 (fun hf => hhug s.1 hmem hf)
    have hstep : dist (nodeData g n).position (nodeData g s.2).position ≤
        get_edge_cost g s.1 := by
      rcases hconn with ⟨hf, hsd⟩ | ⟨hf, hsd⟩
      · rw [hf, hsd] at hchord
        exact hchord
      · rw [hf, hsd] at hchord
        rw [dist_comm_pair]
        exact hchord
    have htri := dist_triangle_pair (nodeData g n).position
      (nodeData g s.2).position (nodeData g goal).position
    have hih := ih s.2 hrest
    unfold get_heuristic at hih ⊢
    unfold walkWeight at hih ⊢
    simp only [List.map_cons, List.sum_cons]
    linarith

/-- C9: every edge cost `1 + length` is at least the Euclidean distance between
the edge endpoints (for hugging edges the arc length `r·φ` is at least the
chord `2·r·sin(φ/2)`), so the straight-line-distance heuristic never exceeds
the cost of any walk to the goal — it is admissible. -/
theorem C9_cost_dominates_chord (g : Graph) (goal : ℕ)
    (hhug : ∀ e ∈ get_edges g, e.surfing = false → hugOnCircle g e) :
    (∀ e ∈ get_edges g,
        dist (nodeData g e.first).position (nodeData g e.second).position ≤
          get_edge_cost g e) ∧
      ∀ n ws, stepsFrom g n ws goal → get_heuristic g goal n ≤ walkWeight g ws :=
  ⟨fun e he => edge_cost_ge_chord g e (fun hf => hhug e he hf),
    fun n ws h => heuristic_le_walk g goal hhug ws n h⟩

/-- The concrete graph used to witness C9: a radius-1 disc at the origin with a
hugging edge between its nodes at `(1,0)` and `(-1,0)`, and a surfing edge to
the point disc at `(5,0)`. -/
def C9graph : Graph :=
  ⟨[⟨1, (0, 0)⟩, ⟨0, (5, 0)⟩], [⟨0, (1, 0)⟩, ⟨0, (-1, 0)⟩, ⟨1, (5, 0)⟩],
    [⟨1, 2, true⟩], [⟨0, 1, false⟩]⟩

/-- Witness for C9 on `C9graph` with goal node 2. -/
theorem C9_cost_dominates_chord_witness :
    (∀ e ∈ get_edges C9graph,
        dist (nodeData C9graph e.first).position (nodeData C9graph e.second).position ≤
          get_edge_cost C9graph e) ∧
      ∀ n ws, stepsFrom C9graph n ws 2 →
        get_heuristic C9graph 2 n ≤ walkWeight C9graph ws := by
  apply C9_cost_dominates_chord
  intro e he hf
  have hmem : e = GEdge.mk 1 2 true ∨ e = GEdge.mk 0 1 false := by
    simpa [get_edges, C9graph] using he
  rcases hmem with rfl | rfl
  · exact absurd hf (by simp)
  · constructor
    · show dist ((1 : ℝ), (0 : ℝ)) ((0 : ℝ), (0 : ℝ)) = 1
      unfold dist
      norm_num
    · show dist ((-1 : ℝ), (0 : ℝ)) ((0 : ℝ), (0 : ℝ)) = 1
      unfold dist
      norm_num

/-! ## Claim C8: minor-arc selection in `generate_arc_gcode` -/

/-- The (possibly swapped) pair of normalized endpoint angles used by
`generate_arc_gcode`: both angles in `[0, 2π)`, swapped when they differ by
more than π. -/
def arcAnglePair (c : Circle) (sn en : MNode) : ℝ × ℝ :=
  let arcStart := zero_to_2pi (v2v_angle c.center sn.position)
  let arcEnd := zero_to_2pi (v2v_angle c.center en.position)
  if |arcStart - arcEnd| > Real.pi then (arcEnd, arcStart) else (arcStart, arcEnd)

/-- The angle swept when travelling counter-clockwise from angle `a` to angle
`b` on a circle (angles in `[0, 2π)`). -/
def ccwExtent (a b : ℝ) : ℝ :=
  zero_to_2pi (b - a)

/-- C8: `generate_arc_gcode` normalizes both endpoint angles into `[0, 2π)`,
applies the swap rule when they differ by more than π, chooses `G3` (CCW)
exactly when the possibly-swapped end angle exceeds the possibly-swapped start
angle, emits I/J offsets equal to the center minus the arc-start position, and
the resulting instruction always traverses the minor arc: the angle actually
swept from the start node to the end node in the emitted direction is at most π
(e.g. endpoints at 10° and 350° travel the 20° arc, not the 340° one). -/
theorem C8_minor_arc (c : Circle) (sn en : MNode) :
    generate_arc_gcode c sn en =
      Instr.arc (if (arcAnglePair c sn en).1 < (arcAnglePair c sn en).2 then true else false)
        en.position (c.center.1 - sn.position.1) (c.center.2 - sn.position.2) ∧
      (if (arcAnglePair c sn en).1 < (arcAnglePair c sn en).2 then
          ccwExtent (zero_to_2pi (v2v_angle c.center sn.position))
            (zero_to_2pi (v2v_angle c.center en.position))
        else
          ccwExtent (zero_to_2pi (v2v_angle c.center en.position))
            (zero_to_2pi (v2v_angle c.center sn.position))) ≤ Real.pi := by
  refine ⟨rfl, ?_⟩
  have hS0 : 0 ≤ zero_to_2pi (v2v_angle c.center sn.position) := zero_to_2pi_nonneg _
  have hS2 : zero_to_2pi (v2v_angle c.center sn.position) < 2 * Real.pi := zero_to_2pi_lt _
  have hE0 : 0 ≤ zero_to_2pi (v2v_angle c.center en.position) := zero_to_2pi_nonneg _
  have hE2 : zero_to_2pi (v2v_angle c.center en.position) < 2 * Real.pi := zero_to_2pi_lt _
  set S := zero_to_2pi (v2v_angle c.center sn.position) with hSdef
  set E := zero_to_2pi (v2v_angle c.center en.position) with hEdef
  unfold arcAnglePair
  rw [← hSdef, ← hEdef]
  by_cases hswap : |S - E| > Real.pi
  · rw [if_pos hswap]
    dsimp only
    by_cases hlt : E < S
    · rw [if_pos hlt]
      have habs : S - E > Real.pi := by
        rwa [abs_of_pos (by linarith)] at hswap
      unfold ccwExtent
      rw [zero_to_2pi_of_neg _ (by linarith) (by linarith)]
      linarith
    · rw [if_neg hlt]
      have hne : S ≠ E := by
        intro h
        rw [h, sub_self, abs_zero] at hswap
        exact absurd hswap (not_lt.mpr Real.pi_pos.le)
      have habs : E - S > Real.pi := by
        have hSE : S ≤ E := not_lt.mp hlt
        rwa [abs_of_neg (by cases lt_or_eq_of_le hSE with
          | inl h => linarith
          | inr h => exact absurd h hne), neg_sub] at hswap
      unfold ccwExtent
      rw [zero_to_2pi_of_neg _ (by linarith) (by linarith)]
      linarith
  · rw [if_neg hswap]
    dsimp only
    have habs := abs_le.mp (not_lt.mp hswap)
    by_cases hlt : S < E
    · rw [if_pos hlt]
      unfold ccwExtent
      rw [zero_to_2pi_of_mem _ (by linarith) (by linarith)]
      linarith
    · rw [if_neg hlt]
      have hES : E ≤ S := not_lt.mp hlt
      unfold ccwExtent
      rw [zero_to_2pi_of_mem _ (by linarith) (by linarith)]
      linarith

/-- Angle of node `i` about the center of circle `c`, normalized into `[0, 2π)` —
the counter-clockwise sort key the spec prescribes for hugging cycles. -/
def angOf (g : Graph) (c i : ℕ) : ℝ :=
  zero_to_2pi (v2v_angle (circleData g c).center (nodeData g i).position)

/-- `x` lies strictly inside the counter-clockwise arc from `a` to `b` (all
angles in `[0, 2π)`). -/
def cyclicBetween (a b x : ℝ) : Prop :=
  if a < b then a < x ∧ x < b else a < x ∨ x < b

/-- Nodes `i` and `j` are angularly adjacent on circle `c`: at least one of the
two arcs between them contains no node of the circle strictly inside — the
property every edge of the angular-order cycle has. -/
def angularlyAdjacent (g : Graph) (c i j : ℕ) : Prop :=
  (∀ k ∈ nodesOnCircle g c, ¬ cyclicBetween (angOf g c i) (angOf g c j) (angOf g c k)) ∨
    (∀ k ∈ nodesOnCircle g c, ¬ cyclicBetween (angOf g c j) (angOf g c i) (angOf g c k))

/-- A radius-1 disc at the origin carrying four nodes inserted in the order
0°, 180°, 90°, 270°. -/
def C3graph : Graph :=
  ⟨[⟨1, (0, 0)⟩], [⟨0, (1, 0)⟩, ⟨0, (-1, 0)⟩, ⟨0, (0, 1)⟩, ⟨0, (0, -1)⟩], [], []⟩

theorem C3graph_ang0 : angOf C3graph 0 0 = 0 := by
  unfold angOf v2v_angle
  have h : (⟨(1 : ℝ) - 0, (0 : ℝ) - 0⟩ : ℂ) = 1 := by
    apply Complex.ext <;> norm_num
  show zero_to_2pi (Complex.arg ⟨(1 : ℝ) - 0, (0 : ℝ) - 0⟩) = 0
  rw [h, Complex.arg_one]
  exact zero_to_2pi_of_mem 0 le_rfl (by positivity)

theorem C3graph_ang1 : angOf C3graph 0 1 = Real.pi := by
  unfold angOf v2v_angle
  have h : (⟨(-1 : ℝ) - 0, (0 : ℝ) - 0⟩ : ℂ) = -1 := by
    apply Complex.ext <;> norm_num
  show zero_to_2pi (Complex.arg ⟨(-1 : ℝ) - 0, (0 : ℝ) - 0⟩) = Real.pi
  rw [h, Complex.arg_neg_one]
  exact zero_to_2pi_of_mem Real.pi Real.pi_pos.le (by linarith [Real.pi_pos])

theorem C3graph_ang2 : angOf C3graph 0 2 = Real.pi / 2 := by
  unfold angOf v2v_angle
  have h : (⟨(0 : ℝ) - 0, (1 : ℝ) - 0⟩ : ℂ) = Complex.I := by
    apply Complex.ext <;> norm_num
  show zero_to_2pi (Complex.arg ⟨(0 : ℝ) - 0, (1 : ℝ) - 0⟩) = Real.pi / 2
  rw [h, Complex.arg_I]
  exact zero_to_2pi_of_mem _ (by positivity) (by linarith [Real.pi_pos])

theorem C3graph_ang3 : angOf C3graph 0 3 = -(Real.pi / 2) + 2 * Real.pi := by
  unfold angOf v2v_angle
  have h : (⟨(0 : ℝ) - 0, (-1 : ℝ) - 0⟩ : ℂ) = -Complex.I := by
    apply Complex.ext <;> norm_num
  show zero_to_2pi (Complex.arg ⟨(0 : ℝ) - 0, (-1 : ℝ) - 0⟩) = -(Real.pi / 2) + 2 * Real.pi
  rw [h, Complex.arg_neg_I]
  exact zero_to_2pi_of_neg _ (by linarith [Real.pi_pos]) (by linarith [Real.pi_pos])

/-- C3, counterexample: on the disc of `C3graph` (nodes inserted in the order
0°, 180°, 90°, 270°) the rebuilt hugging edges include the edge joining the 0°
and 180° nodes, which are *not* angularly adjacent — the 90° node lies strictly
inside one arc between them and the 270° node strictly inside the other.  The
construction connects nodes in insertion order and never sorts by angle. -/
theorem C3_counterexample :
    GEdge.mk 0 1 false ∈ (add_hugging_edges C3graph).hugging_edges ∧
      ¬ angularlyAdjacent C3graph 0 0 1 := by
  have h1 : (circleData C3graph 0).r ≠ 0 := by
    norm_num [circleData, C3graph]
  have hedges := (C3_amended C3graph 0).1 h1
  have hn : nodesOnCircle C3graph 0 = [0, 1, 2, 3] := rfl
  have hmem : GEdge.mk 0 1 false ∈
      edgesOnCircle C3graph 0 (add_hugging_edges C3graph).hugging_edges := by
    rw [hedges.1, hn]
    decide
  constructor
  · exact List.mem_of_mem_filter hmem
  · intro h
    rcases h with h | h
    · refine h 2 (by rw [hn]; decide) ?_
      rw [C3graph_ang0, C3graph_ang1, C3graph_ang2]
      unfold cyclicBetween
      rw [if_pos Real.pi_pos]
      constructor
      · positivity
      · linarith [Real.pi_pos]
    · refine h 3 (by rw [hn]; decide) ?_
      rw [C3graph_ang0, C3graph_ang1, C3graph_ang3]
      unfold cyclicBetween
      rw [if_neg (by linarith [Real.pi_pos])]
      left
      linarith [Real.pi_pos]

/-- Witness for C3's amended theorem: on `C3graph` the rebuilt hugging edges on
circle 0 are exactly the four insertion-order cycle edges. -/
theorem C3_amended_witness :
    edgesOnCircle C3graph 0 (add_hugging_edges C3graph).hugging_edges =
        cyclePairs (nodesOnCircle C3graph 0) ∧
      (edgesOnCircle C3graph 0 (add_hugging_edges C3graph).hugging_edges).length =
        (nodesOnCircle C3graph 0).length :=
  (C3_amended C3graph 0).1 (by norm_num [circleData, C3graph])

/-- C10: a nonzero-radius disc carrying exactly one node receives, when hugging
edges are rebuilt, exactly one hugging edge — a self-loop joining the node to
itself — whose edge cost is `1` (arc length 0), and the neighbor query reports
the self-loop as a neighbor pair of the node with itself. -/
theorem C10_self_loop (g : Graph) (c n : ℕ)
    (hr : (circleData g c).r ≠ 0)
    (hone : nodesOnCircle g c = [n])
    (hon : dist (nodeData g n).position (circleData g c).center = (circleData g c).r) :
    edgesOnCircle g c (add_hugging_edges g).hugging_edges = [⟨n, n, false⟩] ∧
      get_edge_cost g ⟨n, n, false⟩ = 1 ∧
      (n, GEdge.mk n n false) ∈ get_neighbors (add_hugging_edges g) n := by
  have hcirc : (nodeData g n).circle = c := by
    have : n ∈ nodesOnCircle g c := by
      rw [hone]
      exact List.mem_singleton_self n
    exact ((mem_nodesOnCircle g c n).mp this).2
  have hcycle : edgesOnCircle g c (add_hugging_edges g).hugging_edges = [⟨n, n, false⟩] := by
    rw [((C3_amended g c).1 hr).1, hone]
    unfold cyclePairs
    rw [List.rotate_singleton]
    rfl
  refine ⟨hcycle, ?_, ?_⟩
  · -- the self-loop's cost: φ = arccos 1 = 0, so cost = 1 + r·0 = 1
    unfold get_edge_cost
    simp only [Bool.false_eq_true, if_false]
    rw [hcirc]
    set p := (nodeData g n).position
    set ctr := (circleData g c).center
    set s := (p.1 - ctr.1) ^ 2 + (p.2 - ctr.2) ^ 2 with hs
    have hsnn : 0 ≤ s := by positivity
    have hsqrt : Real.sqrt s = (circleData g c).r := hon
    have hsne : s ≠ 0 := by
      intro h0
      rw [h0, Real.sqrt_zero] at hsqrt
      exact hr hsqrt.symm
    have hdot : p.1 * p.1 - p.1 * ctr.1 - (ctr.1 * p.1 - ctr.1 * ctr.1) +
        (p.2 * p.2 - p.2 * ctr.2 - (ctr.2 * p.2 - ctr.2 * ctr.2)) = s := by
      rw [hs]
      ring
    have hmul : Real.sqrt s * Real.sqrt s = s := Real.mul_self_sqrt hsnn
    have hratio : (p.1 - ctr.1) * (p.1 - ctr.1) + (p.2 - ctr.2) * (p.2 - ctr.2) = s := by
      rw [hs]
      ring
    show 1 + (circleData g c).r * Real.arccos (np_clip
      (((p.1 - ctr.1) * (p.1 - ctr.1) + (p.2 - ctr.2) * (p.2 - ctr.2)) /
        (Real.sqrt ((p.1 - ctr.1) ^ 2 + (p.2 - ctr.2) ^ 2) *
          Real.sqrt ((p.1 - ctr.1) ^ 2 + (p.2 - ctr.2) ^ 2))) (-1) 1) = 1
    rw [hratio, ← hs, hmul, div_self hsne]
    have hclip : np_clip 1 (-1) 1 = 1 := by
      unfold np_clip
      norm_num
    rw [hclip, Real.arccos_one, mul_zero, add_zero]
  · unfold get_neighbors
    rw [List.mem_filterMap]
    refine ⟨⟨n, n, false⟩, ?_, ?_⟩
    · unfold get_edges
      rw [List.mem_append]
      right
      have : GEdge.mk n n false ∈ edgesOnCircle g c (add_hugging_edges g).hugging_edges := by
        rw [hcycle]
        exact List.mem_singleton_self _
      exact List.mem_of_mem_filter this
    · rw [if_pos rfl]

/-- Witness for C10 at a concrete graph: a radius-1 disc at the origin carrying
the single node `(1, 0)`. -/
theorem C10_self_loop_witness :
    edgesOnCircle ⟨[⟨1, (0, 0)⟩], [⟨0, (1, 0)⟩], [], []⟩ 0
        (add_hugging_edges ⟨[⟨1, (0, 0)⟩], [⟨0, (1, 0)⟩], [], []⟩).hugging_edges =
        [⟨0, 0, false⟩] ∧
      get_edge_cost ⟨[⟨1, (0, 0)⟩], [⟨0, (1, 0)⟩], [], []⟩ ⟨0, 0, false⟩ = 1 ∧
      (0, GEdge.mk 0 0 false) ∈ get_neighbors
        (add_hugging_edges ⟨[⟨1, (0, 0)⟩], [⟨0, (1, 0)⟩], [], []⟩) 0 :=
  C10_self_loop ⟨[⟨1, (0, 0)⟩], [⟨0, (1, 0)⟩], [], []⟩ 0 0
    (by norm_num [circleData])
    rfl
    (by
      show Real.sqrt (((1 : ℝ) - 0) ^ 2 + ((0 : ℝ) - 0) ^ 2) = 1
      norm_num)

/-- Witness for C7's amended theorem at a concrete path: three nodes on the
radius-1 disc at the origin followed by a node on a different disc. -/
theorem C7_amended_witness :
    trace_path
        [⟨⟨1, (0, 0)⟩, 0, (1, 0)⟩, ⟨⟨1, (0, 0)⟩, 0, (0, 1)⟩, ⟨⟨1, (0, 0)⟩, 0, (-1, 0)⟩,
          ⟨⟨1, (5, 5)⟩, 1, (5, 4)⟩] =
      [Instr.g90, generate_linear_gcode ⟨⟨1, (0, 0)⟩, 0, (1, 0)⟩,
        generate_arc_gcode ⟨1, (0, 0)⟩ ⟨⟨1, (0, 0)⟩, 0, (1, 0)⟩ ⟨⟨1, (0, 0)⟩, 0, (-1, 0)⟩,
        generate_linear_gcode ⟨⟨1, (5, 5)⟩, 1, (5, 4)⟩] ∧
      countArcs (trace_path
        [⟨⟨1, (0, 0)⟩, 0, (1, 0)⟩, ⟨⟨1, (0, 0)⟩, 0, (0, 1)⟩, ⟨⟨1, (0, 0)⟩, 0, (-1, 0)⟩,
          ⟨⟨1, (5, 5)⟩, 1, (5, 4)⟩]) = 1 :=
  C7_amended ⟨⟨1, (0, 0)⟩, 0, (1, 0)⟩ ⟨⟨1, (0, 0)⟩, 0, (0, 1)⟩ ⟨⟨1, (0, 0)⟩, 0, (-1, 0)⟩
    ⟨⟨1, (5, 5)⟩, 1, (5, 4)⟩ rfl rfl (by simp) (by simp [Prod.ext_iff]) (by simp [Prod.ext_iff])

/-! ## Claim C1: correctness and optimality of `calculate_path` -/

/-- Folding `relaxNeighbor` over a list of sound neighbors of `cur` succeeds,
preserves the mid-expansion invariant and the cost of `cur`, relaxes every
processed neighbor, and never increases a recorded cost. -/
theorem relax_fold_spec (g : Graph) (s t cur : ℕ)
    (Hw : ∀ e ∈ get_edges g, 1 ≤ get_edge_cost g e) :
    ∀ (l : List (ℕ × GEdge)) (st : SState) (c0 : ℝ),
      (∀ p ∈ l, p.2 ∈ get_edges g ∧ connects p.2 cur p.1) →
      MidInv g s t cur st → alookup cur st.cost = some c0 →
      ∃ st2, List.foldlM (relaxNeighbor g t cur) st l = some st2 ∧
        MidInv g s t cur st2 ∧ alookup cur st2.cost = some c0 ∧
        (∀ p ∈ l, ∃ cm, alookup p.1 st2.cost = some cm ∧
          cm ≤ c0 + get_edge_cost g p.2) ∧
        (∀ v c, alookup v st.cost = some c →
          ∃ c2, alookup v st2.cost = some c2 ∧ c2 ≤ c) := by
  intro l
  induction l with
  | nil =>
    intro st c0 _ hinv hc0
    exact ⟨st, rfl, hinv, hc0, by intro p hp; simp at hp,
      fun v c h => ⟨c, h, le_refl c⟩⟩
  | cons p rest ih =>
    intro st c0 hsound hinv hc0
    obtain ⟨m, e⟩ := p
    obtain ⟨he, hcn⟩ := hsound (m, e) (List.mem_cons_self _ _)
    obtain ⟨st1, hrn, hinv1, hc01, hrelp, hdecr1, hfro1, hunch1, hstruct1⟩ :=
      relaxNeighbor_step g s t cur Hw st m e he hcn c0 hc0 hinv
    obtain ⟨st2, hfold, hinv2, hc02, hrell, hdecr2⟩ :=
      ih st1 c0 (fun q hq => hsound q (List.mem_cons_of_mem _ hq)) hinv1 hc01
    refine ⟨st2, ?_, hinv2, hc02, ?_, ?_⟩
    · rw [List.foldlM_cons, hrn]
      simpa using hfold
    · intro q hq
      rcases List.mem_cons.mp hq with rfl | hq2
      · obtain ⟨cm, hcm, hcmle⟩ := hrelp
        obtain ⟨cm2, hcm2, hcm2le⟩ := hdecr2 m cm hcm
        exact ⟨cm2, hcm2, by dsimp only; linarith⟩
      · exact hrell q hq2
    · intro v c h
      obtain ⟨c1, h1, hle1⟩ := hdecr1 v c h
      obtain ⟨c2, h2, hle2⟩ := hdecr2 v c1 h1
      exact ⟨c2, h2, by linarith⟩

/-- Expanding a popped node restores the full invariant: afterwards every
costed node, including the expanded one, is relaxed or in the frontier. -/
theorem expandNode_spec (g : Graph) (s t cur : ℕ)
    (Hw : ∀ e ∈ get_edges g, 1 ≤ get_edge_cost g e)
    (st : SState) (c0 : ℝ)
    (hinv : MidInv g s t cur st) (hc0 : alookup cur st.cost = some c0) :
    ∃ st2, expandNode g t cur st = some st2 ∧ AInv g s t st2 ∧
      alookup cur st2.cost = some c0 ∧
      (∀ v c, alookup v st.cost = some c →
        ∃ c2, alookup v st2.cost = some c2 ∧ c2 ≤ c) := by
  obtain ⟨st2, hfold, hinv2, hc02, hrell, hdecr⟩ :=
    relax_fold_spec g s t cur Hw (get_neighbors g cur) st c0
      (fun p hp => get_neighbors_sound g cur p hp) hinv hc0
  refine ⟨st2, hfold, ⟨hinv2.1, ?_⟩, hc02, hdecr⟩
  intro v c h
  by_cases hv : v = cur
  · subst hv
    have hcc : c0 = c := Option.some_injective _ (hc02.symm.trans h)
    right
    intro p hp
    obtain ⟨cm, hcm, hcmle⟩ := hrell p hp
    exact ⟨cm, hcm, by rw [← hcc]; exact hcmle⟩
  · exact hinv2.2 v c hv h

/-- The key path lemma: under the invariant, every walk from a costed node to
the goal either certifies the goal's recorded cost or passes through a
frontier entry whose priority it dominates. -/
theorem path_lemma (g : Graph) (s t : ℕ)
    (hhug : ∀ e ∈ get_edges g, e.surfing = false → hugOnCircle g e)
    (st : SState) (hinv : AInv g s t st) :
    ∀ (ws : List (GEdge × ℕ)) (u : ℕ) (cu : ℝ), stepsFrom g u ws t →
      alookup u st.cost = some cu →
      (∃ ct, alookup t st.cost = some ct ∧ ct ≤ cu + walkWeight g ws) ∨
      (∃ pr ∈ st.frontier, pr.1 ≤ cu + walkWeight g ws) := by
  obtain ⟨core, hrel⟩ := hinv
  intro ws
  induction ws with
  | nil =>
    intro u cu hsteps hcu
    left
    have hut : u = t := hsteps
    subst hut
    refine ⟨cu, hcu, ?_⟩
    rw [walkWeight_nil]
    linarith
  | cons x rest ih =>
    intro u cu hsteps hcu
    obtain ⟨hmem, hcon, hrest⟩ := hsteps
    rcases hrel u cu hcu with ⟨pr, hpr, hpr2, hprle⟩ | hnb
    · right
      refine ⟨pr, hpr, ?_⟩
      have hh := heuristic_le_walk g t hhug (x :: rest) u ⟨hmem, hcon, hrest⟩
      linarith
    · obtain ⟨cm, hcm, hcmle⟩ :=
        hnb (x.2, x.1) (mem_get_neighbors_of_connects g u x.2 x.1 hmem hcon)
      dsimp only at hcm hcmle
      rcases ih x.2 cm hrest hcm with ⟨ct, hct, hctle⟩ | ⟨pr, hpr, hprle⟩
      · left
        refine ⟨ct, hct, ?_⟩
        rw [walkWeight_cons]
        linarith
      · right
        refine ⟨pr, hpr, ?_⟩
        rw [walkWeight_cons]
        linarith

/-- Dropping the popped entry from the frontier preserves the bookkeeping
invariant. -/
theorem coreInv_drop (g : Graph) (s t : ℕ) (st : SState)
    (core : CoreInv g s t st) (x : ℝ × ℕ) (rest : List (ℝ × ℕ))
    (hperm : st.frontier.Perm (x :: rest)) :
    CoreInv g s t ⟨rest, st.explored, st.cost⟩ := by
  refine ⟨core.start_cost, core.start_pred, core.nonneg, core.dom_iff,
    core.len_eq, core.nodup_cost, core.dom_sub, core.bounded, core.val_real,
    ?_, core.pred_edge, core.pred_none⟩
  intro pr hpr
  exact core.frontier_inv pr (hperm.mem_iff.mpr (List.mem_cons_of_mem _ hpr))

/-- Whenever the loop returns a state, that state satisfies the bookkeeping
invariant and is either a fully-relaxed exhausted search (empty frontier) or
has popped the goal with a certified optimal cost. -/
theorem astarLoop_spec (g : Graph) (s t : ℕ)
    (Hw : ∀ e ∈ get_edges g, 1 ≤ get_edge_cost g e)
    (hhug : ∀ e ∈ get_edges g, e.surfing = false → hugOnCircle g e) :
    ∀ (fuel : ℕ) (st st2 : SState), AInv g s t st →
      astarLoop g t fuel st = some st2 →
      CoreInv g s t st2 ∧
        ((st2.frontier = [] ∧ RelaxedAll g t st2) ∨ GoalBound g s t st2) := by
  intro fuel
  induction fuel with
  | zero =>
    intro st st2 hinv hloop
    unfold astarLoop at hloop
    cases hp : popMin st.frontier with
    | none =>
      rw [hp] at hloop
      obtain rfl := Option.some_injective _ hloop
      exact ⟨hinv.1, Or.inl ⟨(popMin_eq_none_iff _).mp hp, hinv.2⟩⟩
    | some pc =>
      rw [hp] at hloop
      simp at hloop
  | succ fuel ih =>
    intro st st2 hinv hloop
    unfold astarLoop at hloop
    cases hp : popMin st.frontier with
    | none =>
      rw [hp] at hloop
      obtain rfl := Option.some_injective _ hloop
      exact ⟨hinv.1, Or.inl ⟨(popMin_eq_none_iff _).mp hp, hinv.2⟩⟩
    | some pc =>
      obtain ⟨⟨p, cur⟩, rest⟩ := pc
      rw [hp] at hloop
      dsimp only at hloop
      obtain ⟨hmem, hperm, hmin⟩ := popMin_spec st.frontier (p, cur) rest hp
      obtain ⟨core, hrel⟩ := hinv
      obtain ⟨ccur, hccur, hdisj⟩ := core.frontier_inv (p, cur) hmem
      dsimp only at hccur hdisj
      by_cases hcg : cur = t
      · rw [if_pos hcg] at hloop
        obtain rfl := Option.some_injective _ hloop
        rw [hcg] at hccur hdisj
        refine ⟨coreInv_drop g s t st core (p, cur) rest hperm, Or.inr ?_⟩
        refine ⟨ccur, hccur, ?_⟩
        intro ws hws
        have hht : get_heuristic g t t = 0 := get_heuristic_self g t
        rcases path_lemma g s t hhug st ⟨core, hrel⟩ ws s 0 hws
            core.start_cost with ⟨ct, hct, hctle⟩ | ⟨pr, hpr, hprle⟩
        · have hce : ct = ccur := Option.some_injective _ (hct.symm.trans hccur)
          linarith
        · have hple := hmin pr hpr
          rcases hdisj with hle | ⟨hts, hp0⟩
          · rw [hht] at hle
            linarith
          · have hc0 : ccur = 0 := by
              rw [hts] at hccur
              exact (Option.some_injective _
                (core.start_cost.symm.trans hccur)).symm
            have hwnn := walkWeight_nonneg g Hw ws s t hws
            linarith
      · rw [if_neg hcg] at hloop
        have hinvm : MidInv g s t cur ⟨rest, st.explored, st.cost⟩ := by
          refine ⟨coreInv_drop g s t st core (p, cur) rest hperm, ?_⟩
          intro v c hvcur h
          rcases hrel v c h with ⟨pr, hpr, hpr2, hprle⟩ | hnb
          · left
            refine ⟨pr, ?_, hpr2, hprle⟩
            rcases List.mem_cons.mp (hperm.mem_iff.mp hpr) with hpx | hprest
            · exfalso
              apply hvcur
              rw [← hpr2, hpx]

            · exact hprest
          · exact Or.inr hnb
        obtain ⟨st3, hexp, hainv3, -, -⟩ :=
          expandNode_spec g s t cur Hw ⟨rest, st.explored, st.cost⟩ ccur
            hinvm hccur
        rw [hexp] at hloop
        dsimp only at hloop
        exact ih st3 st2 hainv3 hloop

/-- Number of recorded costs strictly below `c` (the termination measure of
the reconstruction walk). -/
def countLt (d : List (ℕ × ℝ)) (c : ℝ) : ℕ :=
  (d.filter (fun kv => decide (kv.2 < c))).length

theorem filter_length_mono {α : Type} (p q : α → Bool)
    (himp : ∀ a, p a = true → q a = true) :
    ∀ l : List α, (l.filter p).length ≤ (l.filter q).length := by
  intro l
  induction l with
  | nil => exact le_refl 0
  | cons a tl ih =>
    cases hpa : p a with
    | true =>
      rw [List.filter_cons_of_pos hpa, List.filter_cons_of_pos (himp a hpa)]
      exact Nat.succ_le_succ ih
    | false =>
      rw [List.filter_cons_of_neg (by rw [hpa]; exact Bool.false_ne_true)]
      cases hqa : q a with
      | true =>
        rw [List.filter_cons_of_pos hqa]
        exact le_trans ih (Nat.le_succ _)
      | false =>
        rw [List.filter_cons_of_neg (by rw [hqa]; exact Bool.false_ne_true)]
        exact ih

theorem filter_length_lt {α : Type} (p q : α → Bool)
    (himp : ∀ a, p a = true → q a = true) :
    ∀ (l : List α) (x : α), x ∈ l → q x = true → p x = false →
      (l.filter p).length < (l.filter q).length := by
  intro l
  induction l with
  | nil =>
    intro x hx
    simp at hx
  | cons a tl ih =>
    intro x hx hqx hpx
    rcases List.mem_cons.mp hx with rfl | hx2
    · rw [List.filter_cons_of_neg (by rw [hpx]; exact Bool.false_ne_true),
        List.filter_cons_of_pos hqx]
      exact Nat.lt_succ_of_le (filter_length_mono p q himp tl)
    · have hlt := ih x hx2 hqx hpx
      cases hpa : p a with
      | true =>
        rw [List.filter_cons_of_pos hpa, List.filter_cons_of_pos (himp a hpa)]
        exact Nat.succ_lt_succ hlt
      | false =>
        rw [List.filter_cons_of_neg (by rw [hpa]; exact Bool.false_ne_true)]
        cases hqa : q a with
        | true =>
          rw [List.filter_cons_of_pos hqa]
          exact Nat.lt_succ_of_lt hlt
        | false =>
          rw [List.filter_cons_of_neg (by rw [hqa]; exact Bool.false_ne_true)]
          exact hlt

/-- A recorded cost strictly below another sees strictly fewer recorded costs
below it. -/
theorem countLt_lt_of (d : List (ℕ × ℝ)) (u : ℕ) (cu cv : ℝ)
    (hmem : alookup u d = some cu) (hlt : cu < cv) :
    countLt d cu < countLt d cv := by
  unfold countLt
  refine filter_length_lt _ _ ?_ d (u, cu) (alookup_mem u cu d hmem) ?_ ?_
  · intro a ha
    exact decide_eq_true (lt_trans (of_decide_eq_true ha) hlt)
  · exact decide_eq_true hlt
  · exact decide_eq_false (lt_irrefl cu)

/-- Walking the predecessor map from any costed node reaches the start and
yields a walk whose weight is at most the node's recorded cost. -/
theorem reconstructGo_spec (g : Graph) (s t : ℕ) (st : SState)
    (core : CoreInv g s t st)
    (Hw : ∀ e ∈ get_edges g, 1 ≤ get_edge_cost g e) :
    ∀ (fuel cur : ℕ) (ccur : ℝ) (acc : List ℕ),
      alookup cur st.cost = some ccur →
      countLt st.cost ccur < fuel →
      ∃ ws, stepsFrom g s ws cur ∧ walkWeight g ws ≤ ccur ∧
        reconstructGo st.explored s fuel cur acc =
          some (walkNodes s ws ++ acc) := by
  intro fuel
  induction fuel with
  | zero =>
    intro cur ccur acc _ hf
    omega
  | succ fuel ih =>
    intro cur ccur acc hcur hf
    by_cases hcs : cur = s
    · subst hcs
      have hc0 : (0 : ℝ) = ccur :=
        Option.some_injective _ (core.start_cost.symm.trans hcur)
      refine ⟨[], rfl, ?_, ?_⟩
      · rw [walkWeight_nil]
        linarith
      · unfold reconstructGo
        rw [if_pos rfl]
        rfl
    · have hdom : (alookup cur st.explored).isSome :=
        (core.dom_iff cur).mp (by rw [hcur]; rfl)
      obtain ⟨pr, hpr⟩ := Option.isSome_iff_exists.mp hdom
      cases pr with
      | none => exact absurd (core.pred_none cur hpr) hcs
      | some u =>
        obtain ⟨e, he, hcon, cu, cv, hcu, hcv, hle⟩ := core.pred_edge cur u hpr
        have hcveq : cv = ccur := Option.some_injective _ (hcv.symm.trans hcur)
        have hw1 := Hw e he
        have hcult : cu < ccur := by linarith
        have hcount := countLt_lt_of st.cost u cu ccur hcu hcult
        have hfu : countLt st.cost cu < fuel := by
          have hfc : countLt st.cost ccur < fuel + 1 := hf
          omega
        obtain ⟨ws, hsteps, hwle, hrec⟩ := ih u cu (cur :: acc) hcu hfu
        refine ⟨ws ++ [(e, cur)],
          steps_snoc g e cur ws s u hsteps he hcon, ?_, ?_⟩
        · rw [walkWeight_append, walkWeight_cons, walkWeight_nil]
          dsimp only
          linarith
        · show reconstructGo st.explored s (fuel + 1) cur acc =
            some (walkNodes s (ws ++ [(e, cur)]) ++ acc)
          unfold reconstructGo
          rw [if_neg hcs, hpr]
          rw [walkNodes_snoc, List.append_assoc]
          exact hrec

/-- Full path reconstruction from the goal, with the source's fuel bound. -/
theorem reconstructPath_spec (g : Graph) (s t : ℕ) (st : SState)
    (core : CoreInv g s t st)
    (Hw : ∀ e ∈ get_edges g, 1 ≤ get_edge_cost g e)
    (ct : ℝ) (hct : alookup t st.cost = some ct) :
    ∃ ws, stepsFrom g s ws t ∧ walkWeight g ws ≤ ct ∧
      reconstructPath st.explored s t = some (walkNodes s ws) := by
  have hcount : countLt st.cost ct < st.explored.length + 1 := by
    have h1 : countLt st.cost ct ≤ st.cost.length := List.length_filter_le _ _
    rw [core.len_eq]
    omega
  obtain ⟨ws, h1, h2, h3⟩ := reconstructGo_spec g s t st core Hw
    (st.explored.length + 1) t ct [] hct hcount
  refine ⟨ws, h1, h2, ?_⟩
  unfold reconstructPath
  rw [List.append_nil] at h3
  exact h3

/-- Partial correctness of `calculate_path`: whenever the loop returns within
its fuel and the goal is reachable at all, the returned node list is the node
sequence of a minimum-weight walk from start to goal. -/
theorem calculate_path_partial (g : Graph) (s t : ℕ)
    (Hw : ∀ e ∈ get_edges g, 1 ≤ get_edge_cost g e)
    (hhug : ∀ e ∈ get_edges g, e.surfing = false → hugOnCircle g e)
    (fuel : ℕ) (st2 : SState)
    (hloop : astarLoop g t fuel (initState s) = some st2)
    (ws0 : List (GEdge × ℕ)) (hconn : stepsFrom g s ws0 t) :
    ∃ ws, stepsFrom g s ws t ∧
      calculate_path g s t fuel = some (walkNodes s ws) ∧
      ∀ ws2, stepsFrom g s ws2 t → walkWeight g ws ≤ walkWeight g ws2 := by
  obtain ⟨core2, hpost⟩ := astarLoop_spec g s t Hw hhug fuel (initState s) st2
    (initState_inv g s t) hloop
  have hgb : GoalBound g s t st2 := by
    rcases hpost with ⟨hempty, hrelax⟩ | hgb
    · rcases path_lemma g s t hhug st2 ⟨core2, hrelax⟩ ws0 s 0 hconn
          core2.start_cost with ⟨ct, hct, -⟩ | ⟨pr, hpr, -⟩
      · refine ⟨ct, hct, ?_⟩
        intro ws hws
        rcases path_lemma g s t hhug st2 ⟨core2, hrelax⟩ ws s 0 hws
            core2.start_cost with ⟨ct2, hct2, hle2⟩ | ⟨pr, hpr, -⟩
        · have hc : ct2 = ct := Option.some_injective _ (hct2.symm.trans hct)
          rw [← hc]
          linarith
        · rw [hempty] at hpr
          simp at hpr
      · rw [hempty] at hpr
        simp at hpr
    · exact hgb
  obtain ⟨ct, hct, hbound⟩ := hgb
  obtain ⟨ws, hsteps, hwle, hrec⟩ :=
    reconstructPath_spec g s t st2 core2 Hw ct hct
  refine ⟨ws, hsteps, ?_, ?_⟩
  · unfold calculate_path
    rw [hloop]
    exact hrec
  · intro ws2 hws2
    have hb := hbound ws2 hws2
    linarith

/-! ### Termination of the search loop -/

/-- A uniform bound on how many distinct keys the cost map can hold. -/
def nodeCount (g : Graph) (s : ℕ) : ℕ := (nodeUniverse g s).dedup.length

/-- A natural-number bound on every recorded cost. -/
def natBound (g : Graph) (s : ℕ) : ℕ :=
  Nat.ceil ((nodeCount g s : ℝ) * weightBound g)

/-- The finite set of reals that can appear as recorded costs: weighted sums
of edge costs with small natural coefficients. -/
def valSet (g : Graph) (s : ℕ) : Finset ℝ :=
  (Finset.univ :
      Finset (Fin (get_edges g).length → Fin (natBound g s + 1))).image
    (fun f => ∑ i, ((f i : ℕ) : ℝ) * edgeCostIdx g i)

theorem keys_length_le (g : Graph) (s t : ℕ) (st : SState)
    (core : CoreInv g s t st) : st.cost.length ≤ nodeCount g s := by
  have h1 : (st.cost.map Prod.fst).length = st.cost.length :=
    List.length_map _ _
  have h2 : (st.cost.map Prod.fst).toFinset.card =
      (st.cost.map Prod.fst).length :=
    List.toFinset_card_of_nodup core.nodup_cost
  have h3 : (st.cost.map Prod.fst).toFinset ⊆ (nodeUniverse g s).toFinset := by
    intro a ha
    exact List.mem_toFinset.mpr (core.dom_sub a
      ((alookup_isSome_iff_mem_keys a st.cost).mpr (List.mem_toFinset.mp ha)))
  have h4 := Finset.card_le_card h3
  have h5 : (nodeUniverse g s).toFinset.card =
      (nodeUniverse g s).dedup.length := List.card_toFinset _
  unfold nodeCount
  omega

theorem cost_le_natBound (g : Graph) (s t : ℕ) (st : SState)
    (core : CoreInv g s t st) (v : ℕ) (c : ℝ)
    (h : alookup v st.cost = some c) : c ≤ (natBound g s : ℝ) := by
  have hb := core.bounded v c h
  have hk := keys_length_le g s t st core
  have hwb := weightBound_nonneg g
  have h2 : c ≤ (nodeCount g s : ℝ) * weightBound g :=
    le_trans hb (mul_le_mul_of_nonneg_right (Nat.cast_le.mpr hk) hwb)
  exact le_trans h2 (Nat.le_ceil _)

/-- Every recorded cost belongs to the finite value set. -/
theorem cost_mem_valSet (g : Graph) (s t : ℕ) (st : SState)
    (core : CoreInv g s t st) (v : ℕ) (c : ℝ)
    (h : alookup v st.cost = some c) : c ∈ valSet g s := by
  obtain ⟨f, hf1, hf2⟩ := core.val_real v c h
  have hbound := cost_le_natBound g s t st core v c h
  have hfle : ∀ i, f i ≤ natBound g s := by
    intro i
    have hs1 : ((f i : ℕ) : ℝ) ≤ ∑ j, ((f j : ℕ) : ℝ) :=
      Finset.single_le_sum (f := fun j => ((f j : ℕ) : ℝ))
        (fun j _ => Nat.cast_nonneg _) (Finset.mem_univ i)
    have hs2 : ((f i : ℕ) : ℝ) ≤ (natBound g s : ℝ) := by linarith
    exact_mod_cast hs2
  refine Finset.mem_image.mpr
    ⟨fun i => ⟨f i, Nat.lt_succ_of_le (hfle i)⟩, Finset.mem_univ _, hf2.symm⟩

/-- Potential of one node: how far its recorded cost can still drop inside the
value set (undiscovered nodes sit at the top). -/
def phiNode (g : Graph) (s : ℕ) (st : SState) (v : ℕ) : ℕ :=
  match alookup v st.cost with
  | none => (valSet g s).card
  | some c => ((valSet g s).filter (fun x => x < c)).card

/-- All node ids the search can touch, as a finite set. -/
def universeFinset (g : Graph) (s : ℕ) : Finset ℕ := (nodeUniverse g s).toFinset

/-- The loop variant: frontier size plus twice the total node potential. -/
def mu (g : Graph) (s : ℕ) (st : SState) : ℕ :=
  st.frontier.length + 2 * ∑ v ∈ universeFinset g s, phiNode g s st v

theorem phiNode_congr (g : Graph) (s : ℕ) (st st2 : SState) (v : ℕ)
    (h : alookup v st2.cost = alookup v st.cost) :
    phiNode g s st2 v = phiNode g s st v := by
  unfold phiNode
  rw [h]

theorem phiNode_lt_of_discover (g : Graph) (s : ℕ) (st st2 : SState) (v : ℕ)
    (c : ℝ) (h1 : alookup v st.cost = none) (h2 : alookup v st2.cost = some c)
    (hc : c ∈ valSet g s) : phiNode g s st2 v < phiNode g s st v := by
  unfold phiNode
  rw [h1, h2]
  refine Finset.card_lt_card ((Finset.ssubset_iff_of_subset
    (Finset.filter_subset _ _)).mpr ⟨c, hc, ?_⟩)
  simp [lt_irrefl]

theorem phiNode_lt_of_decrease (g : Graph) (s : ℕ) (st st2 : SState) (v : ℕ)
    (c old : ℝ) (h1 : alookup v st.cost = some old)
    (h2 : alookup v st2.cost = some c) (hlt : c < old)
    (hc : c ∈ valSet g s) : phiNode g s st2 v < phiNode g s st v := by
  unfold phiNode
  rw [h1, h2]
  refine Finset.card_lt_card ((Finset.ssubset_iff_of_subset ?_).mpr
    ⟨c, ?_, ?_⟩)
  · intro x hx
    rw [Finset.mem_filter] at hx ⊢
    exact ⟨hx.1, lt_trans hx.2 hlt⟩
  · rw [Finset.mem_filter]
    exact ⟨hc, hlt⟩
  · simp [lt_irrefl]

/-- A single relaxation never increases the variant: a push pays for its new
frontier entry by strictly lowering the relaxed node's potential. -/
theorem relaxNeighbor_mu (g : Graph) (s t cur : ℕ)
    (Hw : ∀ e ∈ get_edges g, 1 ≤ get_edge_cost g e)
    (st : SState) (m : ℕ) (e : GEdge)
    (he : e ∈ get_edges g) (hc : connects e cur m)
    (c0 : ℝ) (hc0 : alookup cur st.cost = some c0)
    (hinv : MidInv g s t cur st)
    (st2 : SState) (h2 : relaxNeighbor g t cur st (m, e) = some st2) :
    mu g s st2 ≤ mu g s st := by
  obtain ⟨st2', hrn, hinv2, -, -, -, -, hunch, hstruct⟩ :=
    relaxNeighbor_step g s t cur Hw st m e he hc c0 hc0 hinv
  obtain rfl : st2' = st2 := Option.some_injective _ (hrn.symm.trans h2)
  rcases hstruct with rfl | ⟨hflen, hm2, hinner⟩
  · exact le_refl _
  · have hmU : m ∈ universeFinset g s := by
      unfold universeFinset
      refine List.mem_toFinset.mpr ?_
      unfold nodeUniverse
      refine List.mem_cons_of_mem _ (List.mem_flatMap.mpr ⟨e, he, ?_⟩)
      rcases hc with ⟨h1a, h2a⟩ | ⟨h1a, h2a⟩
      · rw [← h2a]
        exact List.mem_cons_of_mem _ (List.mem_cons_self _ _)
      · rw [← h1a]
        exact List.mem_cons_self _ _
    have hcmem : (c0 + get_edge_cost g e) ∈ valSet g s :=
      cost_mem_valSet g s t st2' hinv2.1 m _ hm2
    have hphim : phiNode g s st2' m < phiNode g s st m := by
      rcases hinner with ⟨hm0, -⟩ | ⟨old, hmold, hlt, -⟩
      · exact phiNode_lt_of_discover g s st st2' m _ hm0 hm2 hcmem
      · exact phiNode_lt_of_decrease g s st st2' m _ old hmold hm2 hlt hcmem
    have hsum : (∑ v ∈ universeFinset g s, phiNode g s st2' v) <
        ∑ v ∈ universeFinset g s, phiNode g s st v := by
      refine Finset.sum_lt_sum (fun v _ => ?_) ⟨m, hmU, hphim⟩
      by_cases hvm : v = m
      · exact le_of_lt (hvm ▸ hphim)
      · exact le_of_eq (phiNode_congr g s st st2' v (hunch v hvm))
    unfold mu
    rw [hflen]
    omega

/-- The whole neighbor loop never increases the variant. -/
theorem relax_fold_mu (g : Graph) (s t cur : ℕ)
    (Hw : ∀ e ∈ get_edges g, 1 ≤ get_edge_cost g e) :
    ∀ (l : List (ℕ × GEdge)) (st : SState) (c0 : ℝ),
      (∀ p ∈ l, p.2 ∈ get_edges g ∧ connects p.2 cur p.1) →
      MidInv g s t cur st → alookup cur st.cost = some c0 →
      ∀ st2, List.foldlM (relaxNeighbor g t cur) st l = some st2 →
        mu g s st2 ≤ mu g s st := by
  intro l
  induction l with
  | nil =>
    intro st c0 _ _ _ st2 hfold
    obtain rfl : st = st2 := Option.some_injective _ hfold
    exact le_refl _
  | cons p rest ih =>
    intro st c0 hsound hinv hc0 st2 hfold
    obtain ⟨m, e⟩ := p
    obtain ⟨he, hcn⟩ := hsound (m, e) (List.mem_cons_self _ _)
    obtain ⟨st1, hrn, hinv1, hc01, -, -, -, -, -⟩ :=
      relaxNeighbor_step g s t cur Hw st m e he hcn c0 hc0 hinv
    rw [List.foldlM_cons, hrn] at hfold
    have hfold1 : List.foldlM (relaxNeighbor g t cur) st1 rest = some st2 := by
      simpa using hfold
    have h1 := relaxNeighbor_mu g s t cur Hw st m e he hcn c0 hc0 hinv st1 hrn
    have h2 := ih st1 c0 (fun q hq => hsound q (List.mem_cons_of_mem _ hq))
      hinv1 hc01 st2 hfold1
    omega

/-- Popping an entry leaves the mid-expansion invariant for the popped node. -/
theorem midInv_drop (g : Graph) (s t : ℕ) (st : SState)
    (hinv : AInv g s t st) (p : ℝ) (cur : ℕ) (rest : List (ℝ × ℕ))
    (hperm : st.frontier.Perm ((p, cur) :: rest)) :
    MidInv g s t cur ⟨rest, st.explored, st.cost⟩ := by
  obtain ⟨core, hrel⟩ := hinv
  refine ⟨coreInv_drop g s t st core (p, cur) rest hperm, ?_⟩
  intro v c hvcur h
  rcases hrel v c h with ⟨pr, hpr, hpr2, hprle⟩ | hnb
  · left
    refine ⟨pr, ?_, hpr2, hprle⟩
    rcases List.mem_cons.mp (hperm.mem_iff.mp hpr) with hpx | hprest
    · exfalso
      apply hvcur
      rw [← hpr2, hpx]
    · exact hprest
  · exact Or.inr hnb

/-- With fuel exceeding the variant of the current state, the loop returns. -/
theorem astarLoop_total (g : Graph) (s t : ℕ)
    (Hw : ∀ e ∈ get_edges g, 1 ≤ get_edge_cost g e) :
    ∀ (n : ℕ) (st : SState), AInv g s t st → mu g s st < n →
      ∃ st2, astarLoop g t n st = some st2 := by
  intro n
  induction n with
  | zero =>
    intro st _ h
    omega
  | succ n ih =>
    intro st hinv hmu
    cases hp : popMin st.frontier with
    | none =>
      refine ⟨st, ?_⟩
      unfold astarLoop
      rw [hp]
    | some pc =>
      obtain ⟨⟨p, cur⟩, rest⟩ := pc
      by_cases hcg : cur = t
      · refine ⟨⟨rest, st.explored, st.cost⟩, ?_⟩
        unfold astarLoop
        rw [hp]
        dsimp only
        rw [if_pos hcg]
      · obtain ⟨hmem, hperm, -⟩ := popMin_spec st.frontier (p, cur) rest hp
        have hinvm := midInv_drop g s t st hinv p cur rest hperm
        obtain ⟨ccur, hccur, -⟩ := hinv.1.frontier_inv (p, cur) hmem
        dsimp only at hccur
        obtain ⟨st3, hexp, hainv3, -, -⟩ :=
          expandNode_spec g s t cur Hw ⟨rest, st.explored, st.cost⟩ ccur
            hinvm hccur
        have hmufold : mu g s st3 ≤
            mu g s ⟨rest, st.explored, st.cost⟩ :=
          relax_fold_mu g s t cur Hw (get_neighbors g cur)
            ⟨rest, st.explored, st.cost⟩ ccur
            (fun q hq => get_neighbors_sound g cur q hq) hinvm hccur st3 hexp
        have hmudrop : mu g s (⟨rest, st.explored, st.cost⟩ : SState) + 1 =
            mu g s st := by
          unfold mu
          have hlen := hperm.length_eq
          rw [List.length_cons] at hlen
          have hsums : (∑ v ∈ universeFinset g s,
              phiNode g s (⟨rest, st.explored, st.cost⟩ : SState) v) =
              ∑ v ∈ universeFinset g s, phiNode g s st v :=
            Finset.sum_congr rfl (fun v _ => phiNode_congr g s st _ v rfl)
          rw [hsums]
          dsimp only
          omega
        obtain ⟨st4, h4⟩ := ih st3 hainv3 (by omega)
        refine ⟨st4, ?_⟩
        unfold astarLoop
        rw [hp]
        dsimp only
        rw [if_neg hcg, hexp]
        exact h4

/-- The loop's answer is stable under extra fuel. -/
theorem astarLoop_mono (g : Graph) (t : ℕ) :
    ∀ (fuel fuel2 : ℕ) (st st2 : SState), fuel ≤ fuel2 →
      astarLoop g t fuel st = some st2 → astarLoop g t fuel2 st = some st2 := by
  intro fuel
  induction fuel with
  | zero =>
    intro fuel2 st st2 _ hloop
    unfold astarLoop at hloop
    cases hp : popMin st.frontier with
    | none =>
      rw [hp] at hloop
      obtain rfl := Option.some_injective _ hloop
      cases fuel2 with
      | zero =>
        unfold astarLoop
        rw [hp]
      | succ f2 =>
        unfold astarLoop
        rw [hp]
    | some pc =>
      rw [hp] at hloop
      simp at hloop
  | succ fuel ih =>
    intro fuel2 st st2 hle hloop
    cases fuel2 with
    | zero => omega
    | succ f2 =>
      unfold astarLoop at hloop ⊢
      cases hp : popMin st.frontier with
      | none =>
        rw [hp] at hloop
        exact hloop
      | some pc =>
        obtain ⟨⟨p, cur⟩, rest⟩ := pc
        rw [hp] at hloop
        dsimp only at hloop ⊢
        by_cases hcg : cur = t
        · rw [if_pos hcg] at hloop ⊢
          exact hloop
        · rw [if_neg hcg] at hloop ⊢
          cases hexp : expandNode g t cur { st with frontier := rest } with
          | none =>
            rw [hexp] at hloop
            simp at hloop
          | some st3 =>
            rw [hexp] at hloop
            dsimp only at hloop ⊢
            exact ih f2 st3 st2 (by omega) hloop

theorem walkNodes_getLast (g : Graph) :
    ∀ (ws : List (GEdge × ℕ)) (u v : ℕ), stepsFrom g u ws v →
      (walkNodes u ws).getLast? = some v := by
  intro ws
  induction ws with
  | nil =>
    intro u v h
    have huv : u = v := h
    subst huv
    rfl
  | cons x rest ih =>
    intro u v h
    obtain ⟨-, -, hrest⟩ := h
    show (u :: walkNodes x.2 rest).getLast? = some v
    rw [show walkNodes x.2 rest = x.2 :: rest.map Prod.snd from rfl,
      List.getLast?_cons_cons]
    exact ih x.2 v hrest

/-- C1: on every graph whose hugging edges lie on their discs, whenever the
goal is reachable from the start at all, `calculate_path` (run with enough
fuel, standing for the unbounded `while` loop of the source, with the goal
accepted only when dequeued) returns the node sequence of a walk from the
start to the goal whose total edge cost (per `get_edge_cost`) is minimal over
all walks from start to goal. -/
theorem C1_astar_optimal (g : Graph) (s t : ℕ)
    (hhug : ∀ e ∈ get_edges g, e.surfing = false → hugOnCircle g e)
    (ws0 : List (GEdge × ℕ)) (hconn : stepsFrom g s ws0 t) :
    ∃ fuel0, ∀ fuel, fuel0 ≤ fuel →
      ∃ ws, stepsFrom g s ws t ∧
        calculate_path g s t fuel = some (walkNodes s ws) ∧
        (walkNodes s ws).head? = some s ∧
        (walkNodes s ws).getLast? = some t ∧
        ∀ ws2, stepsFrom g s ws2 t → walkWeight g ws ≤ walkWeight g ws2 := by
  have Hw : ∀ e ∈ get_edges g, 1 ≤ get_edge_cost g e :=
    fun e he => edge_cost_ge_one g e (fun hf => hhug e he hf)
  obtain ⟨st2, hloop⟩ := astarLoop_total g s t Hw (mu g s (initState s) + 1)
    (initState s) (initState_inv g s t) (Nat.lt_succ_self _)
  refine ⟨mu g s (initState s) + 1, ?_⟩
  intro fuel hf
  have hloop2 := astarLoop_mono g t (mu g s (initState s) + 1) fuel
    (initState s) st2 hf hloop
  obtain ⟨ws, h1, h2, h3⟩ := calculate_path_partial g s t Hw hhug fuel st2
    hloop2 ws0 hconn
  exact ⟨ws, h1, h2, rfl, walkNodes_getLast g ws s t h1, h3⟩

/-- A two-node graph joined by one surfing edge. -/
def C1graph : Graph :=
  ⟨[⟨0, (0, 0)⟩, ⟨0, (10, 0)⟩], [⟨0, (0, 0)⟩, ⟨1, (10, 0)⟩],
    [⟨0, 1, true⟩], []⟩

theorem C1_astar_optimal_witness :
    (∀ e ∈ get_edges C1graph, e.surfing = false → hugOnCircle C1graph e) ∧
    stepsFrom C1graph 0 [(⟨0, 1, true⟩, 1)] 1 ∧
    ∃ fuel0, ∀ fuel, fuel0 ≤ fuel →
      ∃ ws, stepsFrom C1graph 0 ws 1 ∧
        calculate_path C1graph 0 1 fuel = some (walkNodes 0 ws) ∧
        (walkNodes 0 ws).head? = some 0 ∧
        (walkNodes 0 ws).getLast? = some 1 ∧
        ∀ ws2, stepsFrom C1graph 0 ws2 1 →
          walkWeight C1graph ws ≤ walkWeight C1graph ws2 := by
  have h1 : ∀ e ∈ get_edges C1graph, e.surfing = false →
      hugOnCircle C1graph e := by
    intro e he hf
    have he2 : e = ⟨0, 1, true⟩ := List.mem_singleton.mp he
    subst he2
    exact Bool.noConfusion hf
  have h2 : stepsFrom C1graph 0 [(⟨0, 1, true⟩, 1)] 1 :=
    ⟨List.mem_singleton.mpr rfl, Or.inl ⟨rfl, rfl⟩, rfl⟩
  exact ⟨h1, h2, C1_astar_optimal C1graph 0 1 h1 [(⟨0, 1, true⟩, 1)] h2⟩

end Mags
